import Mathlib

/-!
Verification of the JSON/file synchronization engine in `src/template.ts`
(class `Template`).  The development embeds the data model (JSON values as
JavaScript sees them), the recursive merge `Template.deepMerge`, the key
masking `Template.omit`, the path mappings `Template.templateFile` /
`Template.normalFile`, the tree walk `Template.files`, and the
orchestration `Template.main` (configuration loading, cache clone, JSON
merge, bulk copy), and proves the stated properties about them.
-/

namespace Template

/-- A JSON value, as produced by `JSON.parse` in `Template.readJson`.
Objects are insertion-ordered association lists (JavaScript objects);
arrays are dense element lists.  Numbers carry integers: the merge logic
never computes with numbers, it only moves them around, so the numeric
subset suffices for the embedding. -/
inductive JVal where
  | null
  | bool (b : Bool)
  | num (n : Int)
  | str (s : String)
  | arr (elems : List JVal)
  | obj (fields : List (String × JVal))

/-- `value instanceof Object` (line 137): true exactly for arrays and plain
objects among JSON values. -/
def structuredB : JVal → Bool
  | .arr _ => true
  | .obj _ => true
  | _ => false

/-- A scalar (non-structured) JSON value: `instanceof Object` is false. -/
def isScalar (v : JVal) : Bool := !structuredB v

/-- JavaScript truthiness, used by `if (!config.source)` (line 48) and the
`x || y` defaults (lines 49, 54, 149). -/
def truthy : JVal → Bool
  | .null => false
  | .bool b => b
  | .num n => n != 0
  | .str s => s != ""
  | .arr _ => true
  | .obj _ => true

/-- First-match lookup in an object's field list.  JavaScript objects have
unique keys, so first match and last match agree on values reachable from
`JSON.parse`. -/
def lookupF (fs : List (String × JVal)) (k : String) : Option JVal :=
  match fs with
  | [] => none
  | (k', v) :: rest => if k' = k then some v else lookupF rest k

/-- Property read `obj[k]` restricted to plain objects (used to state the
claims); `none` plays the role of JavaScript's `undefined`. -/
def getJ (v : JVal) (k : String) : Option JVal :=
  match v with
  | .obj fs => lookupF fs k
  | _ => none

def keysF (fs : List (String × JVal)) : List String := fs.map Prod.fst

/-- Property write on an object: an existing key is updated in place (its
position is unchanged), a new key is appended — exactly JavaScript's
assignment/`Object.assign` ordering behaviour. -/
def insertField (fs : List (String × JVal)) (k : String) (v : JVal) :
    List (String × JVal) :=
  match fs with
  | [] => [(k, v)]
  | (k', v') :: rest =>
    if k' = k then (k', v) :: rest else (k', v') :: insertField rest k v

/-- Numeric value of a digit string. -/
def digitsVal (cs : List Char) : Nat :=
  cs.foldl (fun n c => n * 10 + (c.toNat - 48)) 0

/-- Exclusive upper bound for JavaScript array indices (2^32 - 1). -/
def maxArrIdx : Nat := 4294967295

/-- Recognizes a canonical array-index key ("0", "1", ... below 2^32-1);
JavaScript orders such own keys numerically before all other string keys. -/
def toIdx (k : String) : Option Nat :=
  let cs := k.data
  if cs != [] && cs.all Char.isDigit && (cs == ['0'] || cs.head? != some '0') then
    let n := digitsVal cs
    if n < maxArrIdx then some n else none
  else none

/-- An own enumerable property as enumerated by `Object.keys`/`Object.assign`:
its key string, its array-index value when the key is a canonical index, and
the property value. -/
structure JProp where
  key : String
  idx : Option Nat
  val : JVal

def enumFrom {α : Type} (i : Nat) : List α → List (Nat × α)
  | [] => []
  | x :: xs => (i, x) :: enumFrom (i + 1) xs

/-- JavaScript own-property order: integer-like keys ascending first, then
the remaining string keys in insertion order. -/
def jsSortProps (ps : List JProp) : List JProp :=
  let parts := ps.partition fun p => p.idx.isSome
  (parts.1.insertionSort fun a b => a.idx.getD 0 ≤ b.idx.getD 0) ++ parts.2

def propsOfFields (fs : List (String × JVal)) : List JProp :=
  jsSortProps (fs.map fun kv => ⟨kv.1, toIdx kv.1, kv.2⟩)

def propsOfElems (es : List JVal) : List JProp :=
  (enumFrom 0 es).map fun p =>
    ⟨Nat.repr p.1, if p.1 < maxArrIdx then some p.1 else none, p.2⟩

def propsOfStr (s : String) : List JProp :=
  (enumFrom 0 s.data).map fun p =>
    ⟨Nat.repr p.1, if p.1 < maxArrIdx then some p.1 else none, .str (String.mk [p.2])⟩

/-- The own enumerable properties of a value, as `Object.assign` enumerates
its source: `null` (like `undefined`) contributes nothing and is skipped,
numbers and booleans have no own properties, strings expose their characters
at index keys, arrays their elements, objects their fields (integer-like
keys first). -/
def sourcePropsJ : JVal → List JProp
  | .null => []
  | .bool _ => []
  | .num _ => []
  | .str s => propsOfStr s
  | .arr es => propsOfElems es
  | .obj fs => propsOfFields fs

/-- Errors thrown by the JavaScript runtime during a merge
(`TypeError` from null/undefined property access or `Object.assign`
read-only collisions, `RangeError` from invalid array-length writes). -/
inductive MergeErr where
  | typeError
  | rangeError
  deriving DecidableEq

/-- `es[n] = v` on an array: in-bounds indices are overwritten; writing past
the end extends the array (JavaScript leaves holes, which serialize as
`null` and are modelled as explicit `null`s). -/
def setElemN (es : List JVal) (n : Nat) (v : JVal) : List JVal :=
  if n < es.length then es.set n v
  else es ++ List.replicate (n - es.length) .null ++ [v]

/-- `arr.length = n`: truncates or extends (with holes, modelled as `null`). -/
def resizeA (es : List JVal) (n : Nat) : List JVal :=
  if n ≤ es.length then es.take n
  else es ++ List.replicate (n - es.length) .null

/-- Coercion of a value assigned to an array's `length` property.  Numbers,
`null`, booleans and canonical numeric strings coerce as JavaScript does;
remaining cases (e.g. objects, non-numeric strings) make the assignment
throw a `RangeError` and are modelled as `none`. -/
def toLen : JVal → Option Nat
  | .num n => if 0 ≤ n ∧ n < (maxArrIdx : Int) + 1 then some n.toNat else none
  | .null => some 0
  | .bool b => some (if b then 1 else 0)
  | .str s => if s = "" then some 0 else toIdx s
  | _ => none

/-- The property-copy loop of `Object.assign` onto a plain-object target:
each source property is written with `insertField`. -/
def objAssign (fs : List (String × JVal)) (ps : List JProp) :
    List (String × JVal) :=
  ps.foldl (fun acc p => insertField acc p.key p.val) fs

/-- One `Object.assign` property write onto an array target. A non-index
string key other than `length` becomes a non-index own property of the
array; such properties are invisible to `JSON.stringify` and are never read
back by this program, so they are not represented. -/
def assignArrProp (es : List JVal) (p : JProp) : Except MergeErr (List JVal) :=
  match p.idx with
  | some n => .ok (setElemN es n p.val)
  | none =>
    if p.key = "length" then
      match toLen p.val with
      | some n => .ok (resizeA es n)
      | none => .error .rangeError
    else .ok es

/-- `Object.assign(target, source)` (lines 138-145).  A `null` target throws
a `TypeError`.  A number/boolean target is boxed into a wrapper object; the
wrapper is observationally the bare primitive here (JSON serialization
ignores wrapper properties, and the only properties this program ever copies
back out of such a wrapper are ones it just copied in), so the result is
modelled as the primitive itself.  A string target throws when a source
property collides with one of its read-only index/`length` properties, and
otherwise behaves like the number case.  Objects and arrays receive the
properties. -/
def assignJS (t s : JVal) : Except MergeErr JVal :=
  let ps := sourcePropsJ s
  match t with
  | .null => .error .typeError
  | .bool b => .ok (.bool b)
  | .num n => .ok (.num n)
  | .str st =>
    if ps.any fun p =>
        p.key = "length" ||
          (match p.idx with
           | some n => decide (n < st.length)
           | none => false) then
      .error .typeError
    else .ok (.str st)
  | .obj fs => .ok (.obj (objAssign fs ps))
  | .arr es => (ps.foldlM assignArrProp es).map .arr

/-- The property read `target[key]` performed at line 140.  `ki` is the
array-index reading of `key` (always supplied consistently with `toIdx`).
Reading a property of `null` throws; numbers and booleans have no own
properties; strings expose characters and `length`; arrays expose elements
and `length`; objects their fields.  `none` is JavaScript's `undefined`. -/
def getPropK (t : JVal) (k : String) (ki : Option Nat) :
    Except MergeErr (Option JVal) :=
  match t with
  | .null => .error .typeError
  | .bool _ => .ok none
  | .num _ => .ok none
  | .str s =>
    if k = "length" then .ok (some (.num s.length))
    else
      match ki with
      | some n =>
        match s.data.get? n with
        | some c => .ok (some (.str (String.mk [c])))
        | none => .ok none
      | none => .ok none
  | .arr es =>
    if k = "length" then .ok (some (.num es.length))
    else
      match ki with
      | some n => .ok (es.get? n)
      | none => .ok none
  | .obj fs => .ok (lookupF fs k)

/- `Template.deepMerge` (lines 135-147), mutually with the loop of lines
136-143 over the source's entries.  The loop iterates over
`Object.keys(source)`: nothing for numbers/booleans, only scalar characters
for strings, the elements for arrays, the fields for objects
(`Object.keys(null)` throws).  For a structured entry `source[key]` the
loop computes `Object.assign(source[key], deepMerge(target[key],
source[key]))`; when `target[key]` is `undefined` that recursive call
throws unconditionally (either reading a property of `undefined` inside
its own loop, or at `Object.assign(undefined, ...)`), recorded directly as
a `TypeError`.  After the loop, `Object.assign(target, source)` (line 145)
joins target and modified source.  The loop is modelled in field order
rather than JavaScript's integer-keys-first order; the order only selects
which error surfaces when several entries would throw. -/

mutual

def deepMerge (t s : JVal) : Except MergeErr JVal :=
  match s with
  | .null => .error .typeError
  | .obj fields =>
    (mergeFields t fields).bind fun fields' => assignJS t (.obj fields')
  | .arr elems =>
    (mergeElems t 0 elems).bind fun elems' => assignJS t (.arr elems')
  | prim => assignJS t prim

def mergeFields (t : JVal) (fs : List (String × JVal)) :
    Except MergeErr (List (String × JVal)) :=
  match fs with
  | [] => .ok []
  | (k, v) :: rest =>
    (if structuredB v then
        (getPropK t k (toIdx k)).bind fun tv =>
          match tv with
          | none => .error .typeError
          | some tvv => (deepMerge tvv v).bind fun m => assignJS v m
      else .ok v).bind
      fun v' => (mergeFields t rest).map fun rest' => (k, v') :: rest'

def mergeElems (t : JVal) (i : Nat) (es : List JVal) :
    Except MergeErr (List JVal) :=
  match es with
  | [] => .ok []
  | v :: rest =>
    (if structuredB v then
        (getPropK t (Nat.repr i) (if i < maxArrIdx then some i else none)).bind
          fun tv =>
            match tv with
            | none => .error .typeError
            | some tvv => (deepMerge tvv v).bind fun m => assignJS v m
      else .ok v).bind
      fun v' => (mergeElems t (i + 1) rest).map fun rest' => v' :: rest'

end

/-- The loop body for a single source entry, abbreviating the common part
of `mergeFields` and `mergeElems`. -/
def stepEntry (t : JVal) (k : String) (ki : Option Nat) (v : JVal) :
    Except MergeErr JVal :=
  if structuredB v then
    (getPropK t k ki).bind fun tv =>
      match tv with
      | none => .error .typeError
      | some tvv => (deepMerge tvv v).bind fun m => assignJS v m
  else .ok v

theorem mergeFields_nil (t : JVal) : mergeFields t [] = .ok [] := rfl

theorem mergeFields_cons (t : JVal) (k : String) (v : JVal)
    (rest : List (String × JVal)) :
    mergeFields t ((k, v) :: rest) =
      (stepEntry t k (toIdx k) v).bind
        fun v' => (mergeFields t rest).map fun rest' => (k, v') :: rest' := rfl

theorem mergeElems_nil (t : JVal) (i : Nat) : mergeElems t i [] = .ok [] := rfl

theorem mergeElems_cons (t : JVal) (i : Nat) (v : JVal) (rest : List JVal) :
    mergeElems t i (v :: rest) =
      (stepEntry t (Nat.repr i) (if i < maxArrIdx then some i else none) v).bind
        fun v' => (mergeElems t (i + 1) rest).map fun rest' => v' :: rest' := rfl

theorem deepMerge_obj (t : JVal) (fields : List (String × JVal)) :
    deepMerge t (.obj fields) =
      (mergeFields t fields).bind fun fields' => assignJS t (.obj fields') := rfl

theorem deepMerge_arr (t : JVal) (elems : List JVal) :
    deepMerge t (.arr elems) =
      (mergeElems t 0 elems).bind fun elems' => assignJS t (.arr elems') := rfl

/- Well-formed JSON values: object keys are duplicate-free at every level.
`JSON.parse` (the only producer of the values this program merges) never
yields duplicate keys — a duplicated key in the input text keeps only its
last occurrence. -/

mutual

def wfJ : JVal → Bool
  | .null => true
  | .bool _ => true
  | .num _ => true
  | .str _ => true
  | .arr es => wfElemsJ es
  | .obj fs => decide (keysF fs).Nodup && wfFieldsJ fs

def wfFieldsJ : List (String × JVal) → Bool
  | [] => true
  | kv :: rest => wfJ kv.2 && wfFieldsJ rest

def wfElemsJ : List JVal → Bool
  | [] => true
  | v :: rest => wfJ v && wfElemsJ rest

end

theorem wfJ_obj_nodup {fs : List (String × JVal)} (h : wfJ (.obj fs) = true) :
    (keysF fs).Nodup := by
  rw [wfJ] at h
  simpa using (Bool.and_eq_true_iff.mp h).1

theorem wfFieldsJ_mem {fs : List (String × JVal)} {kv : String × JVal}
    (h : wfFieldsJ fs = true) (hm : kv ∈ fs) : wfJ kv.2 = true := by
  induction fs with
  | nil => cases hm
  | cons a rest ih =>
    rw [wfFieldsJ] at h
    rcases List.mem_cons.mp hm with rfl | hm'
    · exact (Bool.and_eq_true_iff.mp h).1
    · exact ih (Bool.and_eq_true_iff.mp h).2 hm'

theorem wfJ_obj_mem {fs : List (String × JVal)} {kv : String × JVal}
    (h : wfJ (.obj fs) = true) (hm : kv ∈ fs) : wfJ kv.2 = true := by
  rw [wfJ] at h
  exact wfFieldsJ_mem (Bool.and_eq_true_iff.mp h).2 hm

/- Lemmas on object field lists: lookup, insertion, `Object.assign`. -/

theorem objAssign_nil (fs : List (String × JVal)) : objAssign fs [] = fs := rfl

theorem objAssign_cons (fs : List (String × JVal)) (p : JProp)
    (ps : List JProp) :
    objAssign fs (p :: ps) = objAssign (insertField fs p.key p.val) ps := rfl

theorem lookupF_insertField_self (fs : List (String × JVal)) (k : String)
    (v : JVal) : lookupF (insertField fs k v) k = some v := by
  induction fs with
  | nil => simp [insertField, lookupF]
  | cons kv rest ih =>
    obtain ⟨k', v'⟩ := kv
    rw [insertField]
    by_cases h : k' = k
    · simp [h, lookupF]
    · rw [if_neg h, lookupF, if_neg h]
      exact ih

theorem lookupF_insertField_ne (fs : List (String × JVal)) {k k' : String}
    (v : JVal) (h : k' ≠ k) :
    lookupF (insertField fs k v) k' = lookupF fs k' := by
  have h2 : k ≠ k' := fun hh => h hh.symm
  induction fs with
  | nil => simp [insertField, lookupF, h2]
  | cons kv rest ih =>
    obtain ⟨k₀, v₀⟩ := kv
    rw [insertField]
    by_cases h₀ : k₀ = k
    · subst h₀
      rw [if_pos rfl]
      rw [lookupF, lookupF, if_neg h2, if_neg h2]
    · rw [if_neg h₀, lookupF, lookupF]
      by_cases hk : k₀ = k'
      · rw [if_pos hk, if_pos hk]
      · rw [if_neg hk, if_neg hk, ih]

theorem mem_keysF_insertField {fs : List (String × JVal)} {k k' : String}
    {v : JVal} :
    k' ∈ keysF (insertField fs k v) ↔ k' ∈ keysF fs ∨ k' = k := by
  induction fs with
  | nil => simp [insertField, keysF]
  | cons kv rest ih =>
    obtain ⟨k₀, v₀⟩ := kv
    rw [insertField]
    by_cases h₀ : k₀ = k
    · subst h₀
      rw [if_pos rfl]
      simp only [keysF, List.map_cons, List.mem_cons]
      tauto
    · rw [if_neg h₀]
      simp only [keysF, List.map_cons, List.mem_cons] at ih ⊢
      rw [ih]
      tauto

theorem nodup_keysF_insertField {fs : List (String × JVal)} {k : String}
    {v : JVal} (h : (keysF fs).Nodup) :
    (keysF (insertField fs k v)).Nodup := by
  induction fs with
  | nil => simp [insertField, keysF]
  | cons kv rest ih =>
    obtain ⟨k₀, v₀⟩ := kv
    rw [insertField]
    rw [keysF, List.map_cons, List.nodup_cons] at h
    by_cases h₀ : k₀ = k
    · rw [if_pos h₀]
      rw [keysF, List.map_cons, List.nodup_cons]
      exact h
    · rw [if_neg h₀]
      rw [keysF, List.map_cons, List.nodup_cons]
      refine ⟨fun hmem => ?_, ih h.2⟩
      rcases mem_keysF_insertField.mp hmem with hmem' | rfl
      · exact h.1 hmem'
      · exact h₀ rfl

theorem lookupF_objAssign_not_mem {ps : List JProp}
    {fs : List (String × JVal)} {k : String}
    (h : ∀ p ∈ ps, p.key ≠ k) :
    lookupF (objAssign fs ps) k = lookupF fs k := by
  induction ps generalizing fs with
  | nil => rfl
  | cons p rest ih =>
    rw [objAssign_cons]
    rw [ih fun q hq => h q (List.mem_cons_of_mem _ hq)]
    exact lookupF_insertField_ne _ _ fun hh => h p (List.mem_cons_self _ _) hh.symm

theorem lookupF_objAssign_mem {ps : List JProp} {fs : List (String × JVal)}
    {p : JProp} (hnd : (ps.map JProp.key).Nodup) (hm : p ∈ ps) :
    lookupF (objAssign fs ps) p.key = some p.val := by
  induction ps generalizing fs with
  | nil => cases hm
  | cons q rest ih =>
    rw [List.map_cons, List.nodup_cons] at hnd
    rw [objAssign_cons]
    rcases List.mem_cons.mp hm with rfl | hm'
    · rw [lookupF_objAssign_not_mem fun r hr hkey =>
        hnd.1 (by rw [← hkey]; exact List.mem_map_of_mem _ hr)]
      exact lookupF_insertField_self _ _ _
    · exact ih hnd.2 hm'

theorem mem_keysF_objAssign {ps : List JProp} {fs : List (String × JVal)}
    {k : String} :
    k ∈ keysF (objAssign fs ps) ↔ k ∈ keysF fs ∨ ∃ p ∈ ps, p.key = k := by
  induction ps generalizing fs with
  | nil => simp [objAssign]
  | cons q rest ih =>
    rw [objAssign_cons, ih]
    rw [mem_keysF_insertField]
    constructor
    · rintro ((h | rfl) | ⟨p, hp, rfl⟩)
      · exact Or.inl h
      · exact Or.inr ⟨q, List.mem_cons_self _ _, rfl⟩
      · exact Or.inr ⟨p, List.mem_cons_of_mem _ hp, rfl⟩
    · rintro (h | ⟨p, hp, rfl⟩)
      · exact Or.inl (Or.inl h)
      · rcases List.mem_cons.mp hp with rfl | hp'
        · exact Or.inl (Or.inr rfl)
        · exact Or.inr ⟨p, hp', rfl⟩

theorem nodup_keysF_objAssign {ps : List JProp} {fs : List (String × JVal)}
    (h : (keysF fs).Nodup) : (keysF (objAssign fs ps)).Nodup := by
  induction ps generalizing fs with
  | nil => exact h
  | cons q rest ih =>
    rw [objAssign_cons]
    exact ih (nodup_keysF_insertField h)

theorem lookupF_some_mem {fs : List (String × JVal)} {k : String} {v : JVal}
    (h : lookupF fs k = some v) : (k, v) ∈ fs := by
  induction fs with
  | nil => cases h
  | cons kv rest ih =>
    obtain ⟨k₀, v₀⟩ := kv
    rw [lookupF] at h
    by_cases h₀ : k₀ = k
    · rw [if_pos h₀] at h
      cases h
      exact h₀ ▸ List.mem_cons_self _ _
    · rw [if_neg h₀] at h
      exact List.mem_cons_of_mem _ (ih h)

theorem mem_lookupF_nodup {fs : List (String × JVal)} {k : String} {v : JVal}
    (hnd : (keysF fs).Nodup) (hm : (k, v) ∈ fs) : lookupF fs k = some v := by
  induction fs with
  | nil => cases hm
  | cons kv rest ih =>
    obtain ⟨k₀, v₀⟩ := kv
    rw [keysF, List.map_cons, List.nodup_cons] at hnd
    rw [lookupF]
    rcases List.mem_cons.mp hm with heq | hm'
    · cases heq
      rw [if_pos rfl]
    · have hne : k₀ ≠ k := by
        rintro rfl
        exact hnd.1 (List.mem_map.mpr ⟨(k₀, v), hm', rfl⟩)
      rw [if_neg hne]
      exact ih hnd.2 hm'

theorem mem_keysF_lookupF {fs : List (String × JVal)} {k : String}
    (h : k ∈ keysF fs) : ∃ v, lookupF fs k = some v := by
  induction fs with
  | nil => cases h
  | cons kv rest ih =>
    obtain ⟨k₀, v₀⟩ := kv
    rw [lookupF]
    by_cases h₀ : k₀ = k
    · exact ⟨v₀, by rw [if_pos h₀]⟩
    · rw [if_neg h₀]
      apply ih
      rw [keysF, List.map_cons, List.mem_cons] at h
      rcases h with rfl | h
      · exact absurd rfl h₀
      · exact h

theorem not_mem_keysF_lookupF {fs : List (String × JVal)} {k : String}
    (h : k ∉ keysF fs) : lookupF fs k = none := by
  induction fs with
  | nil => rfl
  | cons kv rest ih =>
    obtain ⟨k₀, v₀⟩ := kv
    rw [keysF, List.map_cons, List.mem_cons] at h
    push_neg at h
    rw [lookupF, if_neg fun hh => h.1 hh.symm]
    exact ih h.2

/- Facts about the property enumeration of an object source: JavaScript's
integer-first reordering is a permutation of the field list, so key
membership, duplicate-freeness and values transfer both ways. -/

theorem jsSortProps_perm (ps : List JProp) : (jsSortProps ps).Perm ps := by
  unfold jsSortProps
  rw [List.partition_eq_filter_filter]
  refine ((List.perm_insertionSort _ _).append_right _).trans ?_
  have hc : List.filter (not ∘ fun p : JProp => p.idx.isSome) ps
      = List.filter (fun p : JProp => !p.idx.isSome) ps :=
    List.filter_congr fun x _ => rfl
  rw [hc]
  exact List.filter_append_perm _ ps

theorem propsOfFields_perm (fs : List (String × JVal)) :
    (propsOfFields fs).Perm
      (fs.map fun kv => (⟨kv.1, toIdx kv.1, kv.2⟩ : JProp)) :=
  jsSortProps_perm _

theorem mem_propsOfFields {fs : List (String × JVal)} {k : String} {v : JVal}
    (hm : (k, v) ∈ fs) :
    (⟨k, toIdx k, v⟩ : JProp) ∈ propsOfFields fs :=
  (propsOfFields_perm fs).mem_iff.mpr
    (List.mem_map.mpr ⟨(k, v), hm, rfl⟩)

theorem mem_propsOfFields_inv {fs : List (String × JVal)} {p : JProp}
    (hp : p ∈ propsOfFields fs) :
    ∃ kv ∈ fs, p = (⟨kv.1, toIdx kv.1, kv.2⟩ : JProp) := by
  have h := (propsOfFields_perm fs).mem_iff.mp hp
  obtain ⟨kv, hkv, rfl⟩ := List.mem_map.mp h
  exact ⟨kv, hkv, rfl⟩

theorem map_key_propsOfFields_perm (fs : List (String × JVal)) :
    ((propsOfFields fs).map JProp.key).Perm (keysF fs) := by
  refine ((propsOfFields_perm fs).map JProp.key).trans ?_
  rw [List.map_map]
  exact List.Perm.refl _

theorem nodup_key_propsOfFields {fs : List (String × JVal)}
    (h : (keysF fs).Nodup) : ((propsOfFields fs).map JProp.key).Nodup :=
  (map_key_propsOfFields_perm fs).nodup_iff.mpr h

/- Inversion helpers for `Except` computations. -/

theorem exceptBind_ok {ε α β : Type} {e : Except ε α} {f : α → Except ε β}
    {b : β} : e.bind f = .ok b ↔ ∃ a, e = .ok a ∧ f a = .ok b := by
  cases e with
  | error err => simp [Except.bind]
  | ok a => simp [Except.bind]

theorem exceptMap_ok {ε α β : Type} {e : Except ε α} {f : α → β} {b : β} :
    e.map f = .ok b ↔ ∃ a, e = .ok a ∧ f a = b := by
  cases e with
  | error err => simp [Except.map]
  | ok a => simp [Except.map]

/- Unfolding and inversion for the merge loop. -/

theorem stepEntry_scalar {v : JVal} (h : isScalar v = true) (t : JVal)
    (k : String) (ki : Option Nat) : stepEntry t k ki v = .ok v := by
  rw [stepEntry, if_neg]
  rw [isScalar, Bool.not_eq_true'] at h
  simp [h]

theorem assignJS_obj (fs : List (String × JVal)) (s : JVal) :
    assignJS (.obj fs) s = .ok (.obj (objAssign fs (sourcePropsJ s))) := rfl

theorem getPropK_obj (fs : List (String × JVal)) (k : String)
    (ki : Option Nat) : getPropK (.obj fs) k ki = .ok (lookupF fs k) := rfl

/-- The per-entry relation established by a successful `mergeFields` run:
keys are preserved in order and each value is the entry-step result. -/
def entryRel (t : JVal) (kv kv' : String × JVal) : Prop :=
  kv'.1 = kv.1 ∧ stepEntry t kv.1 (toIdx kv.1) kv.2 = .ok kv'.2

theorem mergeFields_ok_forall₂ {t : JVal} {fs fs' : List (String × JVal)}
    (h : mergeFields t fs = .ok fs') : List.Forall₂ (entryRel t) fs fs' := by
  induction fs generalizing fs' with
  | nil =>
    rw [mergeFields_nil] at h
    cases h
    exact List.Forall₂.nil
  | cons kv rest ih =>
    obtain ⟨k, v⟩ := kv
    rw [mergeFields_cons] at h
    obtain ⟨v', hv', h2⟩ := exceptBind_ok.mp h
    obtain ⟨rest', hrest', h3⟩ := exceptMap_ok.mp h2
    cases h3
    exact List.Forall₂.cons ⟨rfl, hv'⟩ (ih hrest')

theorem forall₂_keysF {t : JVal} {fs fs' : List (String × JVal)}
    (h : List.Forall₂ (entryRel t) fs fs') : keysF fs' = keysF fs := by
  induction h with
  | @cons kv kv' l l' hrel hrest ih =>
    show kv'.1 :: keysF l' = kv.1 :: keysF l
    rw [hrel.1, ih]
  | nil => rfl

theorem forall₂_lookupF {t : JVal} {fs fs' : List (String × JVal)}
    {k : String} {v : JVal} (h : List.Forall₂ (entryRel t) fs fs')
    (hl : lookupF fs k = some v) :
    ∃ v', lookupF fs' k = some v' ∧
      stepEntry t k (toIdx k) v = .ok v' := by
  induction h with
  | nil => cases hl
  | cons hrel hrest ih =>
    rename_i kv kv' l l'
    obtain ⟨k₀, v₀⟩ := kv
    obtain ⟨k₁, v₁⟩ := kv'
    obtain ⟨hk, hstep⟩ := hrel
    cases hk
    rw [lookupF] at hl ⊢
    by_cases h₀ : k₀ = k
    · rw [if_pos h₀] at hl ⊢
      cases hl
      exact ⟨v₁, rfl, h₀ ▸ hstep⟩
    · rw [if_neg h₀] at hl ⊢
      exact ih hl

theorem mergeFields_scalar {t : JVal} {fs : List (String × JVal)}
    (h : ∀ kv ∈ fs, isScalar kv.2 = true) : mergeFields t fs = .ok fs := by
  induction fs with
  | nil => rfl
  | cons kv rest ih =>
    obtain ⟨k, v⟩ := kv
    rw [mergeFields_cons,
      stepEntry_scalar (h (k, v) (List.mem_cons_self _ _)) t k (toIdx k)]
    rw [ih fun kv hkv => h kv (List.mem_cons_of_mem _ hkv)]
    rfl

/-- A merge of a well-formed object source into a plain-object target that
succeeds yields exactly `Object.assign(target, modifiedSource)`. -/
theorem deepMerge_obj_obj_ok {tf sf : List (String × JVal)} {r : JVal}
    (hr : deepMerge (.obj tf) (.obj sf) = .ok r) :
    ∃ sf', mergeFields (.obj tf) sf = .ok sf' ∧
      r = .obj (objAssign tf (propsOfFields sf')) := by
  rw [deepMerge_obj] at hr
  obtain ⟨sf', hsf', h2⟩ := exceptBind_ok.mp hr
  rw [assignJS_obj] at h2
  cases h2
  exact ⟨sf', hsf', rfl⟩

theorem mem_keysF_of_mem {fs : List (String × JVal)} {kv : String × JVal}
    (h : kv ∈ fs) : kv.1 ∈ keysF fs :=
  List.mem_map.mpr ⟨kv, h, rfl⟩

theorem stepEntry_objSrc (t : JVal) (k : String) (ki : Option Nat)
    (snf : List (String × JVal)) :
    stepEntry t k ki (.obj snf) =
      (getPropK t k ki).bind fun tv =>
        match tv with
        | none => .error .typeError
        | some tvv =>
          (deepMerge tvv (.obj snf)).bind fun m => assignJS (.obj snf) m := rfl

/-- C1: `deepMerge` is right-biased.  For well-formed object operands whose
merge succeeds: every scalar-valued key of the source appears in the result
with the source's value; every key not in the source keeps the target's
binding; and keys carrying objects on both sides are merged recursively,
the result at such a key keeping every field of the target's nested object
whose key does not occur in the source's nested object. -/
theorem deepMerge_right_biased {tf sf : List (String × JVal)} {r : JVal}
    (hwt : wfJ (.obj tf) = true) (hws : wfJ (.obj sf) = true)
    (hr : deepMerge (.obj tf) (.obj sf) = .ok r) :
    (∀ k v, lookupF sf k = some v → isScalar v = true → getJ r k = some v) ∧
    (∀ k, k ∉ keysF sf → getJ r k = lookupF tf k) ∧
    (∀ k tnf snf, lookupF tf k = some (.obj tnf) →
      lookupF sf k = some (.obj snf) →
      ∃ rnf, getJ r k = some (.obj rnf) ∧
        ∀ k2, k2 ∈ keysF tnf → k2 ∉ keysF snf →
          lookupF rnf k2 = lookupF tnf k2) := by
  obtain ⟨sf', hmf, rfl⟩ := deepMerge_obj_obj_ok hr
  have hf2 := mergeFields_ok_forall₂ hmf
  have hkeys : keysF sf' = keysF sf := forall₂_keysF hf2
  have hndsf : (keysF sf).Nodup := wfJ_obj_nodup hws
  have hndsf' : (keysF sf').Nodup := hkeys ▸ hndsf
  have hndps : ((propsOfFields sf').map JProp.key).Nodup :=
    nodup_key_propsOfFields hndsf'
  refine ⟨?_, ?_, ?_⟩
  · intro k v hl hsc
    obtain ⟨v', hl', hstep⟩ := forall₂_lookupF hf2 hl
    rw [stepEntry_scalar hsc] at hstep
    cases hstep
    show lookupF (objAssign tf (propsOfFields sf')) k = some v
    exact lookupF_objAssign_mem hndps (mem_propsOfFields (lookupF_some_mem hl'))
  · intro k hk
    show lookupF (objAssign tf (propsOfFields sf')) k = lookupF tf k
    apply lookupF_objAssign_not_mem
    intro p hp hkey
    obtain ⟨kv, hkv, rfl⟩ := mem_propsOfFields_inv hp
    exact hk (hkey ▸ hkeys ▸ mem_keysF_of_mem hkv)
  · intro k tnf snf htl hsl
    obtain ⟨v', hl', hstep⟩ := forall₂_lookupF hf2 hsl
    rw [stepEntry_objSrc, getPropK_obj, htl] at hstep
    have hstep2 :
        (deepMerge (.obj tnf) (.obj snf)).bind
          (fun m => assignJS (.obj snf) m) = .ok v' := hstep
    obtain ⟨m, hm, hassign⟩ := exceptBind_ok.mp hstep2
    obtain ⟨snf'', hmf2, rfl⟩ := deepMerge_obj_obj_ok hm
    rw [assignJS_obj] at hassign
    cases hassign
    refine ⟨objAssign snf (propsOfFields (objAssign tnf (propsOfFields snf''))),
      ?_, ?_⟩
    · show lookupF (objAssign tf (propsOfFields sf')) k = some _
      exact lookupF_objAssign_mem hndps
        (mem_propsOfFields (lookupF_some_mem hl'))
    · intro k2 hk2t hk2s
      have hndtnf : (keysF tnf).Nodup :=
        wfJ_obj_nodup (wfJ_obj_mem hwt (lookupF_some_mem htl))
      have hkeys2 : keysF snf'' = keysF snf :=
        forall₂_keysF (mergeFields_ok_forall₂ hmf2)
      have hmfk2 :
          lookupF (objAssign tnf (propsOfFields snf'')) k2 = lookupF tnf k2 := by
        apply lookupF_objAssign_not_mem
        intro p hp hkey
        obtain ⟨kv, hkv, rfl⟩ := mem_propsOfFields_inv hp
        exact hk2s (hkey ▸ hkeys2 ▸ mem_keysF_of_mem hkv)
      obtain ⟨w, hw⟩ := mem_keysF_lookupF hk2t
      have hndmf : (keysF (objAssign tnf (propsOfFields snf''))).Nodup :=
        nodup_keysF_objAssign hndtnf
      have hwmf : lookupF (objAssign tnf (propsOfFields snf'')) k2 = some w := by
        rw [hmfk2, hw]
      rw [lookupF_objAssign_mem (nodup_key_propsOfFields hndmf)
        (mem_propsOfFields (lookupF_some_mem hwmf)), hw]

theorem mergeElems_scalar {es : List JVal} (t : JVal) :
    ∀ i : Nat, (∀ v ∈ es, isScalar v = true) → mergeElems t i es = .ok es := by
  induction es with
  | nil => intro i _; rfl
  | cons v rest ih =>
    intro i h
    rw [mergeElems_cons, stepEntry_scalar (h v (List.mem_cons_self _ _))]
    rw [ih (i + 1) fun w hw => h w (List.mem_cons_of_mem _ hw)]
    rfl

theorem stepEntry_arrSrc (t : JVal) (k : String) (ki : Option Nat)
    (ses : List JVal) :
    stepEntry t k ki (.arr ses) =
      (getPropK t k ki).bind fun tv =>
        match tv with
        | none => .error .typeError
        | some tvv =>
          (deepMerge tvv (.arr ses)).bind fun m => assignJS (.arr ses) m := rfl

theorem setElemN_eq {tes : List JVal} {i : Nat} (v : JVal)
    (h : i ≤ tes.length) :
    setElemN tes i v = tes.take i ++ v :: tes.drop (i + 1) := by
  rw [setElemN]
  by_cases hlt : i < tes.length
  · rw [if_pos hlt, List.set_eq_take_append_cons_drop, if_pos hlt]
  · have hi : i = tes.length := by omega
    rw [if_neg hlt, hi]
    simp

/-- `Object.assign(targetArray, sourceArray)`: the source's elements
overwrite the target index-by-index; the target's extra trailing elements
survive. -/
theorem assignElems_overlay :
    ∀ (ses : List JVal) (i : Nat) (tes : List JVal), i ≤ tes.length →
      i + ses.length ≤ maxArrIdx →
      ((enumFrom i ses).map fun p =>
          (⟨Nat.repr p.1, if p.1 < maxArrIdx then some p.1 else none, p.2⟩ :
            JProp)).foldlM assignArrProp tes =
        .ok (tes.take i ++ ses ++ tes.drop (i + ses.length)) := by
  intro ses
  induction ses with
  | nil =>
    intro i tes hi _
    show pure tes = _
    simp [enumFrom, List.take_append_drop]
    rfl
  | cons v rest ih =>
    intro i tes hi hbound
    have hlen : (v :: rest).length = rest.length + 1 := by simp
    have hiix : i < maxArrIdx := by rw [hlen] at hbound; omega
    rw [enumFrom, List.map_cons, List.foldlM_cons]
    have hstep : assignArrProp tes ⟨Nat.repr i,
        if i < maxArrIdx then some i else none, v⟩ = .ok (setElemN tes i v) := by
      rw [if_pos hiix]; rfl
    rw [hstep, setElemN_eq v hi]
    have hA : (tes.take i).length = i := by rw [List.length_take]; omega
    have hlen' : i + 1 ≤ (tes.take i ++ v :: tes.drop (i + 1)).length := by
      rw [List.length_append, hA, List.length_cons]
      omega
    have hbound' : (i + 1) + rest.length ≤ maxArrIdx := by
      rw [hlen] at hbound; omega
    show ((enumFrom (i + 1) rest).map fun p =>
        (⟨Nat.repr p.1, if p.1 < maxArrIdx then some p.1 else none, p.2⟩ :
          JProp)).foldlM assignArrProp (tes.take i ++ v :: tes.drop (i + 1)) = _
    rw [ih (i + 1) _ hlen' hbound']
    have htake : (tes.take i ++ v :: tes.drop (i + 1)).take (i + 1)
        = tes.take i ++ [v] := by
      rw [List.take_append_eq_append_take, hA,
        List.take_of_length_le (by rw [hA]; omega)]
      have h1 : i + 1 - i = 1 := by omega
      rw [h1]
      simp
    have hdrop : (tes.take i ++ v :: tes.drop (i + 1)).drop
        (i + 1 + rest.length) = tes.drop (i + 1 + rest.length) := by
      rw [List.drop_append_eq_append_drop, hA,
        List.drop_eq_nil_of_le (by rw [hA]; omega), List.nil_append]
      have h1 : i + 1 + rest.length - i = rest.length + 1 := by omega
      rw [h1, List.drop_succ_cons, List.drop_drop]
    have hidx : i + (v :: rest).length = i + 1 + rest.length := by
      rw [hlen]; omega
    rw [htake, hdrop, hidx]
    simp

/- The array-target half of C3: when the target holds an array at the same
key (and the source's elements are scalars), `deepMerge` merges the arrays
element-by-element — the source's elements land at their indices and the
target's extra trailing elements are preserved. -/
theorem deepMerge_array_elementwise_aux {tf sf : List (String × JVal)} {r : JVal}
    {k : String} {tes ses : List JVal}
    (hws : wfJ (.obj sf) = true)
    (hr : deepMerge (.obj tf) (.obj sf) = .ok r)
    (htl : lookupF tf k = some (.arr tes))
    (hsl : lookupF sf k = some (.arr ses))
    (hsc : ∀ v ∈ ses, isScalar v = true)
    (hslen : ses.length ≤ maxArrIdx) (htlen : tes.length ≤ maxArrIdx) :
    getJ r k = some (.arr (ses ++ tes.drop ses.length)) := by
  obtain ⟨sf', hmf, rfl⟩ := deepMerge_obj_obj_ok hr
  have hf2 := mergeFields_ok_forall₂ hmf
  have hndsf' : (keysF sf').Nodup := (forall₂_keysF hf2) ▸ wfJ_obj_nodup hws
  obtain ⟨v', hl', hstep⟩ := forall₂_lookupF hf2 hsl
  rw [stepEntry_arrSrc, getPropK_obj, htl] at hstep
  have hstep2 : (deepMerge (.arr tes) (.arr ses)).bind
      (fun m => assignJS (.arr ses) m) = .ok v' := hstep
  have hme : mergeElems (.arr tes) 0 ses = .ok ses := mergeElems_scalar _ 0 hsc
  have hover :
      assignJS (.arr tes) (.arr ses) = .ok (.arr (ses ++ tes.drop ses.length)) := by
    show ((propsOfElems ses).foldlM assignArrProp tes).map JVal.arr = _
    rw [propsOfElems, assignElems_overlay ses 0 tes (by omega) (by omega)]
    simp [Except.map]
  have hdm : deepMerge (.arr tes) (.arr ses) =
      .ok (.arr (ses ++ tes.drop ses.length)) := by
    rw [deepMerge_arr, hme]
    exact hover
  rw [hdm] at hstep2
  have hst3 : assignJS (.arr ses) (.arr (ses ++ tes.drop ses.length))
      = .ok v' := hstep2
  have hlenov : (ses ++ tes.drop ses.length).length ≤ maxArrIdx := by
    rw [List.length_append, List.length_drop]
    omega
  have hover2 : assignJS (.arr ses) (.arr (ses ++ tes.drop ses.length))
      = .ok (.arr (ses ++ tes.drop ses.length)) := by
    show ((propsOfElems _).foldlM assignArrProp ses).map JVal.arr = _
    rw [propsOfElems, assignElems_overlay _ 0 ses (by omega) (by omega)]
    have hd : ses.drop (0 + (ses ++ tes.drop ses.length).length) = [] := by
      apply List.drop_eq_nil_of_le
      rw [List.length_append]
      omega
    rw [hd]
    simp [Except.map]
  rw [hover2] at hst3
  cases hst3
  show lookupF (objAssign tf (propsOfFields sf')) k = some _
  exact lookupF_objAssign_mem (nodup_key_propsOfFields hndsf')
    (mem_propsOfFields (lookupF_some_mem hl'))


/-- C3 (amended): arrays are not atomic.  An array value in the source
passes the `instanceof Object` test and recurses; when the target also
holds an array at the key (scalar source elements, in-range lengths) the
merge is element-by-element — the source's elements land at their indices
and the target's extra trailing elements survive.  A number or boolean
target at the key IS replaced wholesale (the recursion's `Object.assign`
writes land on a discarded primitive wrapper), and a key absent from the
target throws the C2 `TypeError`. -/
theorem deepMerge_array_elementwise :
    (∀ (tf sf : List (String × JVal)) (r : JVal) (k : String)
        (tes ses : List JVal),
      wfJ (.obj sf) = true →
      deepMerge (.obj tf) (.obj sf) = .ok r →
      lookupF tf k = some (.arr tes) →
      lookupF sf k = some (.arr ses) →
      (∀ v ∈ ses, isScalar v = true) →
      ses.length ≤ maxArrIdx → tes.length ≤ maxArrIdx →
      getJ r k = some (.arr (ses ++ tes.drop ses.length))) ∧
    deepMerge (.obj [("a", .num 5)]) (.obj [("a", .arr [.num 9])])
      = .ok (.obj [("a", .arr [.num 9])]) ∧
    deepMerge (.obj []) (.obj [("a", .arr [.num 9])]) = .error .typeError :=
  ⟨fun tf sf r k tes ses hws hr htl hsl hsc h1 h2 =>
    deepMerge_array_elementwise_aux hws hr htl hsl hsc h1 h2, rfl, rfl⟩

/-- `Array.prototype.includes` against a string property key: strict
equality, so only string elements can match. -/
def strIncl (l : List JVal) (k : String) : Bool :=
  l.any fun v =>
    match v with
    | .str s => s == k
    | _ => false

/-- `keys.includes(curr)` at line 131, for a string property key `curr`.
When `keys` is an array this is strict-equality membership (only string
elements can equal a string key); when `keys` is a string it is
`String.prototype.includes`, a substring test; any other `keys` value has
no `includes` method and throws. -/
def includesKey (keys : JVal) (k : String) : Except MergeErr Bool :=
  match keys with
  | .arr l => .ok (strIncl l k)
  | .str s => .ok (decide (k.data <:+: s.data))
  | _ => .error .typeError

/-- `Object.keys(obj)` together with the associated values, as enumerated by
`Template.omit`'s reduce (lines 129-133).  Unlike an `Object.assign`
source, `Object.keys(null)` throws. -/
def ownProps : JVal → Except MergeErr (List JProp)
  | .null => .error .typeError
  | .bool _ => .ok []
  | .num _ => .ok []
  | .str s => .ok (propsOfStr s)
  | .arr es => .ok (propsOfElems es)
  | .obj fs => .ok (propsOfFields fs)

/-- The reduce of `Template.omit`: rebuild a fresh plain object from the
kept properties (`{...prev, [curr]: value}` updates an existing key in
place and appends a new one). -/
def omitProps (keys : JVal) (ps : List JProp) :
    Except MergeErr (List (String × JVal)) :=
  ps.foldlM
    (fun acc p =>
      (includesKey keys p.key).map fun b =>
        if b then acc else insertField acc p.key p.val)
    []

/-- `Template.omit(keys, obj)` (lines 128-134): a fresh plain object holding
the own enumerable properties of `obj` whose keys are not in `keys`. -/
def omitKeys (keys obj : JVal) : Except MergeErr JVal :=
  (ownProps obj).bind fun ps => (omitProps keys ps).map .obj

/-- The pure data path of `Template.mergeJson` (lines 150-163) for one
configured file in the commit direction: with `P` the parsed project file
and `T` the parsed template file, compute `omit(ignoreKeys, P)` and
`omit(ignoreKeys, T)` (both are computed before the direction branch; the
template's omitted view is unused in this direction) and then
`deepMerge(templateFileJSON, iFileJSON)`. -/
def commitStep (pJson tJson ignoreKeys : JVal) : Except MergeErr JVal := do
  let iP ← omitKeys ignoreKeys pJson
  let _iT ← omitKeys ignoreKeys tJson
  deepMerge tJson iP

/-- The pure data path of `Template.mergeJson` (lines 150-157 and 164-169)
for one configured file in the pull direction:
`deepMerge(fileJSON, iTemplateFileJSON)`. -/
def pullStep (pJson tJson ignoreKeys : JVal) : Except MergeErr JVal := do
  let _iP ← omitKeys ignoreKeys pJson
  let iT ← omitKeys ignoreKeys tJson
  deepMerge pJson iT

/-- Commit then pull over the same pair of JSON files with no intervening
edits: the commit result is the new template file, which the pull then
merges back into the unchanged project file. -/
def roundtripSteps (pJson tJson ignoreKeys : JVal) : Except MergeErr JVal := do
  let t1 ← commitStep pJson tJson ignoreKeys
  pullStep pJson t1 ignoreKeys

/- Characterization of `omit` with an array of keys: it never throws and
returns the fresh object assembled from the properties whose keys are not
in the list. -/

theorem omitProps_arr_aux (igl : List JVal) :
    ∀ (ps : List JProp) (acc : List (String × JVal)),
      ps.foldlM
        (fun acc p =>
          (includesKey (.arr igl) p.key).map fun b =>
            if b then acc else insertField acc p.key p.val)
        acc =
      .ok (objAssign acc (ps.filter fun p => !strIncl igl p.key)) := by
  intro ps
  induction ps with
  | nil => intro acc; rfl
  | cons p rest ih =>
    intro acc
    rw [List.foldlM_cons]
    show ((Except.ok (strIncl igl p.key) : Except MergeErr Bool).map
        fun b => if b then acc else insertField acc p.key p.val) >>= _ = _
    rw [List.filter_cons]
    by_cases hig : strIncl igl p.key = true
    · rw [hig]
      show rest.foldlM _ acc = _
      rw [ih acc]
      simp
    · rw [Bool.not_eq_true] at hig
      rw [hig]
      show rest.foldlM _ (insertField acc p.key p.val) = _
      rw [ih (insertField acc p.key p.val)]
      simp [objAssign_cons]

/-- The filtered property list an array-keyed `omit` keeps. -/
def keptProps (igl : List JVal) (fs : List (String × JVal)) : List JProp :=
  (propsOfFields fs).filter fun p => !strIncl igl p.key

/-- The field list of an array-keyed `omit` of a plain object. -/
def omitArr (igl : List JVal) (fs : List (String × JVal)) :
    List (String × JVal) :=
  objAssign [] (keptProps igl fs)

theorem omitKeys_obj (igl : List JVal) (fs : List (String × JVal)) :
    omitKeys (.arr igl) (.obj fs) = .ok (.obj (omitArr igl fs)) := by
  show (Except.ok (propsOfFields fs)).bind
      (fun ps => (omitProps (.arr igl) ps).map JVal.obj) = _
  show (omitProps (.arr igl) (propsOfFields fs)).map JVal.obj = _
  rw [omitProps, omitProps_arr_aux igl (propsOfFields fs) []]
  rfl

theorem mem_insertField {fs : List (String × JVal)} {k : String} {v : JVal}
    {kv : String × JVal} (h : kv ∈ insertField fs k v) :
    kv ∈ fs ∨ kv = (k, v) := by
  induction fs with
  | nil =>
    rw [insertField] at h
    rcases List.mem_singleton.mp h with rfl
    exact Or.inr rfl
  | cons kv₀ rest ih =>
    obtain ⟨k₀, v₀⟩ := kv₀
    rw [insertField] at h
    by_cases h₀ : k₀ = k
    · rw [if_pos h₀] at h
      rcases List.mem_cons.mp h with rfl | hm
      · exact Or.inr (by rw [h₀])
      · exact Or.inl (List.mem_cons_of_mem _ hm)
    · rw [if_neg h₀] at h
      rcases List.mem_cons.mp h with rfl | hm
      · exact Or.inl (List.mem_cons_self _ _)
      · rcases ih hm with hm' | rfl
        · exact Or.inl (List.mem_cons_of_mem _ hm')
        · exact Or.inr rfl

theorem mem_objAssign {ps : List JProp} {fs : List (String × JVal)}
    {kv : String × JVal} (h : kv ∈ objAssign fs ps) :
    kv ∈ fs ∨ ∃ p ∈ ps, kv = (p.key, p.val) := by
  induction ps generalizing fs with
  | nil => exact Or.inl h
  | cons p rest ih =>
    rw [objAssign_cons] at h
    rcases ih h with hm | ⟨q, hq, rfl⟩
    · rcases mem_insertField hm with hm' | rfl
      · exact Or.inl hm'
      · exact Or.inr ⟨p, List.mem_cons_self _ _, rfl⟩
    · exact Or.inr ⟨q, List.mem_cons_of_mem _ hq, rfl⟩

theorem insertField_id {fs : List (String × JVal)} {k : String} {v : JVal}
    (h : lookupF fs k = some v) : insertField fs k v = fs := by
  induction fs with
  | nil => cases h
  | cons kv rest ih =>
    obtain ⟨k₀, v₀⟩ := kv
    rw [lookupF] at h
    rw [insertField]
    by_cases h₀ : k₀ = k
    · rw [if_pos h₀] at h
      cases h
      rw [if_pos h₀]
    · rw [if_neg h₀] at h
      rw [if_neg h₀, ih h]

theorem objAssign_id {ps : List JProp} {fs : List (String × JVal)}
    (h : ∀ p ∈ ps, lookupF fs p.key = some p.val) : objAssign fs ps = fs := by
  induction ps with
  | nil => rfl
  | cons p rest ih =>
    rw [objAssign_cons, insertField_id (h p (List.mem_cons_self _ _))]
    exact ih fun q hq => h q (List.mem_cons_of_mem _ hq)

theorem nodup_key_keptProps {igl : List JVal} {fs : List (String × JVal)}
    (h : (keysF fs).Nodup) : ((keptProps igl fs).map JProp.key).Nodup :=
  ((List.filter_sublist _).map JProp.key).nodup (nodup_key_propsOfFields h)

theorem mem_keptProps_inv {igl : List JVal} {fs : List (String × JVal)}
    {p : JProp} (hp : p ∈ keptProps igl fs) :
    (∃ kv ∈ fs, p = (⟨kv.1, toIdx kv.1, kv.2⟩ : JProp)) ∧
      strIncl igl p.key = false := by
  rw [keptProps, List.mem_filter] at hp
  exact ⟨mem_propsOfFields_inv hp.1, by simpa using hp.2⟩

/-- Lookup in an array-keyed `omit` output: an ignored key is gone. -/
theorem lookup_omit_ign {igl : List JVal} {fs : List (String × JVal)}
    {k : String} (hig : strIncl igl k = true) :
    lookupF (omitArr igl fs) k = none := by
  unfold omitArr
  rw [lookupF_objAssign_not_mem]
  · rfl
  · intro p hp hkey
    have h2 := (mem_keptProps_inv hp).2
    rw [hkey, hig] at h2
    cases h2

/-- Lookup in an array-keyed `omit` output: a key absent from the object is
still absent. -/
theorem lookup_omit_absent {igl : List JVal} {fs : List (String × JVal)}
    {k : String} (hk : k ∉ keysF fs) :
    lookupF (omitArr igl fs) k = none := by
  unfold omitArr
  rw [lookupF_objAssign_not_mem]
  · rfl
  · intro p hp hkey
    obtain ⟨⟨kv, hkv, rfl⟩, _⟩ := mem_keptProps_inv hp
    exact hk (hkey ▸ mem_keysF_of_mem hkv)

/-- Lookup in an array-keyed `omit` output: a kept key keeps its value. -/
theorem lookup_omit_kept {igl : List JVal} {fs : List (String × JVal)}
    {k : String} {v : JVal} (hnd : (keysF fs).Nodup)
    (hig : strIncl igl k = false) (hl : lookupF fs k = some v) :
    lookupF (omitArr igl fs) k = some v := by
  unfold omitArr
  have hmem : (⟨k, toIdx k, v⟩ : JProp) ∈ keptProps igl fs := by
    rw [keptProps, List.mem_filter]
    exact ⟨mem_propsOfFields (lookupF_some_mem hl), by simp [hig]⟩
  exact lookupF_objAssign_mem (nodup_key_keptProps hnd) hmem

/-- Every entry of an array-keyed `omit` output is an entry of the input
object whose key is kept. -/
theorem mem_omit_inv {igl : List JVal} {fs : List (String × JVal)}
    {kv : String × JVal} (h : kv ∈ omitArr igl fs) :
    kv ∈ fs ∧ strIncl igl kv.1 = false := by
  unfold omitArr at h
  rcases mem_objAssign h with hm | ⟨p, hp, rfl⟩
  · cases hm
  · obtain ⟨⟨kv₀, hkv₀, rfl⟩, hig⟩ := mem_keptProps_inv hp
    exact ⟨hkv₀, hig⟩

theorem nodup_keysF_omitArr (igl : List JVal) (fs : List (String × JVal)) :
    (keysF (omitArr igl fs)).Nodup := by
  unfold omitArr
  exact nodup_keysF_objAssign List.nodup_nil

/-- `Object.assign(base, obj)` for a duplicate-free object source: a key
present in the source ends up with the source's value. -/
theorem assign_lookup_present {base fs : List (String × JVal)} {k : String}
    {v : JVal} (hnd : (keysF fs).Nodup) (h : lookupF fs k = some v) :
    lookupF (objAssign base (propsOfFields fs)) k = some v :=
  lookupF_objAssign_mem (nodup_key_propsOfFields hnd)
    (mem_propsOfFields (lookupF_some_mem h))

/-- `Object.assign(base, obj)` for an object source: a key absent from the
source falls through to the target. -/
theorem assign_lookup_absent {base fs : List (String × JVal)} {k : String}
    (h : lookupF fs k = none) :
    lookupF (objAssign base (propsOfFields fs)) k = lookupF base k := by
  apply lookupF_objAssign_not_mem
  intro p hp hkey
  obtain ⟨kv, hkv, rfl⟩ := mem_propsOfFields_inv hp
  have hkey' : kv.1 = k := hkey
  obtain ⟨w, hw⟩ := mem_keysF_lookupF (hkey' ▸ mem_keysF_of_mem hkv)
  rw [hw] at h
  cases h

/-- A merge whose source object carries only scalar values always succeeds:
it is exactly `Object.assign(target, source)`. -/
theorem deepMerge_scalarSrc {s : List (String × JVal)}
    (tf : List (String × JVal)) (h : ∀ kv ∈ s, isScalar kv.2 = true) :
    deepMerge (.obj tf) (.obj s) = .ok (.obj (objAssign tf (propsOfFields s))) := by
  rw [deepMerge_obj, mergeFields_scalar h]
  rfl

/-- Commit direction of `mergeJson`'s data path when the project file's
kept values are scalars: the omitted project view is assigned onto the
template file. -/
theorem commitStep_scalar {pf tf : List (String × JVal)} {igl : List JVal}
    (hOc : ∀ kv ∈ omitArr igl pf, isScalar kv.2 = true) :
    commitStep (.obj pf) (.obj tf) (.arr igl)
      = .ok (.obj (objAssign tf (propsOfFields (omitArr igl pf)))) := by
  unfold commitStep
  rw [omitKeys_obj, omitKeys_obj]
  show deepMerge (.obj tf) (.obj (omitArr igl pf)) = _
  exact deepMerge_scalarSrc tf hOc

/-- Pull direction of `mergeJson`'s data path when the template file's kept
values are scalars: the omitted template view is assigned onto the project
file. -/
theorem pullStep_scalar {pf t1f : List (String × JVal)} {igl : List JVal}
    (hOp : ∀ kv ∈ omitArr igl t1f, isScalar kv.2 = true) :
    pullStep (.obj pf) (.obj t1f) (.arr igl)
      = .ok (.obj (objAssign pf (propsOfFields (omitArr igl t1f)))) := by
  unfold pullStep
  rw [omitKeys_obj, omitKeys_obj]
  show deepMerge (.obj pf) (.obj (omitArr igl t1f)) = _
  exact deepMerge_scalarSrc pf hOp

/-- In a pulled project file, an ignored key keeps the project's value. -/
theorem pulled_lookup_ign {pf t1f : List (String × JVal)} {igl : List JVal}
    {k : String} {v : JVal} (hig : strIncl igl k = true)
    (h : lookupF pf k = some v) :
    lookupF (objAssign pf (propsOfFields (omitArr igl t1f))) k = some v := by
  rw [assign_lookup_absent (lookup_omit_ign hig)]
  exact h

/-- In a pulled project file, a non-ignored key present in the template
file takes the template's value. -/
theorem pulled_lookup_tmpl {pf t1f : List (String × JVal)} {igl : List JVal}
    {k : String} {v : JVal} (hndt1 : (keysF t1f).Nodup)
    (hig : strIncl igl k = false) (h : lookupF t1f k = some v) :
    lookupF (objAssign pf (propsOfFields (omitArr igl t1f))) k = some v :=
  assign_lookup_present (nodup_keysF_omitArr igl t1f)
    (lookup_omit_kept hndt1 hig h)

/-- A second pull over unchanged inputs is the identity when the project
file already holds every kept template binding. -/
theorem pullStep_idem {p1f t1f : List (String × JVal)} {igl : List JVal}
    (hndt1 : (keysF t1f).Nodup)
    (hOp : ∀ kv ∈ omitArr igl t1f, isScalar kv.2 = true)
    (hall : ∀ k v, strIncl igl k = false → lookupF t1f k = some v →
      lookupF p1f k = some v) :
    pullStep (.obj p1f) (.obj t1f) (.arr igl) = .ok (.obj p1f) := by
  rw [pullStep_scalar hOp]
  congr 2
  apply objAssign_id
  intro p hp
  obtain ⟨kv, hkv, rfl⟩ := mem_propsOfFields_inv hp
  show lookupF p1f kv.1 = some kv.2
  obtain ⟨hmem, hig⟩ := mem_omit_inv hkv
  exact hall kv.1 kv.2 hig (mem_lookupF_nodup hndt1 hmem)

/-- C5 (amended): commit-then-pull round trip over one configured JSON
file pair whose top-level keys are duplicate-free, whose non-ignored keys
are disjoint between project file `P` and template file `T`, and whose
non-ignored top-level values are scalars.  Commit and pull succeed; the
pulled project file keeps every binding of `P` and exposes every
non-ignored binding of `T`; and a second pull over the unchanged files
returns the identical value, so its serialized output is byte-identical. -/
theorem commit_pull_roundtrip {pf tf : List (String × JVal)} {igl : List JVal}
    (hndp : (keysF pf).Nodup) (hndt : (keysF tf).Nodup)
    (hdisj : ∀ k, k ∈ keysF pf → k ∈ keysF tf → strIncl igl k = true)
    (hps : ∀ kv ∈ pf, strIncl igl kv.1 = false → isScalar kv.2 = true)
    (hts : ∀ kv ∈ tf, strIncl igl kv.1 = false → isScalar kv.2 = true) :
    ∃ t1f p1f,
      commitStep (.obj pf) (.obj tf) (.arr igl) = .ok (.obj t1f) ∧
      pullStep (.obj pf) (.obj t1f) (.arr igl) = .ok (.obj p1f) ∧
      (∀ k v, lookupF pf k = some v → lookupF p1f k = some v) ∧
      (∀ kv ∈ tf, strIncl igl kv.1 = false → lookupF p1f kv.1 = some kv.2) ∧
      pullStep (.obj p1f) (.obj t1f) (.arr igl) = .ok (.obj p1f) := by
  have hOcScalar : ∀ kv ∈ omitArr igl pf, isScalar kv.2 = true := by
    intro kv hkv
    obtain ⟨hm, hig⟩ := mem_omit_inv hkv
    exact hps kv hm hig
  obtain ⟨t1f, ht1c⟩ :
      ∃ t1f, commitStep (.obj pf) (.obj tf) (.arr igl) = .ok (.obj t1f) ∧
        t1f = objAssign tf (propsOfFields (omitArr igl pf)) :=
    ⟨_, commitStep_scalar hOcScalar, rfl⟩
  obtain ⟨hc, ht1eq⟩ := ht1c
  have hndt1 : (keysF t1f).Nodup := by
    rw [ht1eq]
    exact nodup_keysF_objAssign hndt
  have hOpScalar : ∀ kv ∈ omitArr igl t1f, isScalar kv.2 = true := by
    intro kv hkv
    obtain ⟨hm, hig⟩ := mem_omit_inv hkv
    rw [ht1eq] at hm
    rcases mem_objAssign hm with hmt | ⟨p, hp, heq⟩
    · exact hts kv hmt hig
    · subst heq
      obtain ⟨kv₀, hkv₀, rfl⟩ := mem_propsOfFields_inv hp
      obtain ⟨hmp, higp⟩ := mem_omit_inv hkv₀
      exact hps _ hmp higp
  have ht1keep : ∀ k v, strIncl igl k = false → lookupF pf k = some v →
      lookupF t1f k = some v := by
    intro k v hig hl
    rw [ht1eq]
    exact assign_lookup_present (nodup_keysF_omitArr igl pf)
      (lookup_omit_kept hndp hig hl)
  have ht1tmpl : ∀ k v, k ∉ keysF pf → lookupF tf k = some v →
      lookupF t1f k = some v := by
    intro k v hk hl
    rw [ht1eq, assign_lookup_absent (lookup_omit_absent hk)]
    exact hl
  refine ⟨t1f, objAssign pf (propsOfFields (omitArr igl t1f)),
    hc, pullStep_scalar hOpScalar, ?_, ?_, ?_⟩
  · intro k v hl
    by_cases hig : strIncl igl k = true
    · exact pulled_lookup_ign hig hl
    · rw [Bool.not_eq_true] at hig
      exact pulled_lookup_tmpl hndt1 hig (ht1keep k v hig hl)
  · intro kv hm hig
    have hnotp : kv.1 ∉ keysF pf := by
      intro hkp
      rw [hdisj kv.1 hkp (mem_keysF_of_mem hm)] at hig
      cases hig
    exact pulled_lookup_tmpl hndt1 hig
      (ht1tmpl kv.1 kv.2 hnotp (mem_lookupF_nodup hndt hm))
  · exact pullStep_idem hndt1 hOpScalar
      fun k v hig hl => pulled_lookup_tmpl hndt1 hig hl

/-- C5 (counterexample to the claim as stated): with project file
`{a: {b: 1}}`, template file `{}` and no ignored keys the non-ignored
top-level keys are disjoint, yet commit-then-pull yields no project file
at all: the commit merge already throws (structured value at a key absent
from the template). -/
theorem roundtrip_structured_error :
    roundtripSteps (.obj [("a", .obj [("b", .num 1)])]) (.obj []) (.arr [])
      = .error .typeError := rfl

/- Path handling.  `Template.templateFile` and `Template.normalFile`
(lines 116-127) are pure string transformations built from a
regex-prefix-strip and `path.join`. -/

/- `path.posix` internals: a path splits on `/` into segments (with empty
segments standing for duplicate, leading and trailing slashes). -/

def splitSlash : List Char → List (List Char)
  | [] => [[]]
  | c :: cs =>
    if c = '/' then [] :: splitSlash cs
    else
      match splitSlash cs with
      | s :: rest => (c :: s) :: rest
      | [] => [[c]]

def joinSegs : List (List Char) → List Char
  | [] => []
  | [s] => s
  | s :: ss => s ++ '/' :: joinSegs ss

/- One step of Node's `normalizeString`: skip empty and `.` segments, and
let `..` consume the previous real segment — or survive at the front of a
relative path (`allowUp`), or vanish at the root. -/
def normStep (allowUp : Bool) (acc : List (List Char)) (seg : List Char) :
    List (List Char) :=
  if seg = [] ∨ seg = ['.'] then acc
  else if seg = ['.', '.'] then
    match acc with
    | a :: rest =>
      if a = ['.', '.'] then (if allowUp then seg :: acc else acc) else rest
    | [] => if allowUp then [seg] else []
  else seg :: acc

def keepSeg (s : List Char) : Bool := decide (s ≠ [] ∧ s ≠ ['.'])

/-- `path.posix.normalize`: resolve `.`, `..` and duplicate slashes,
preserving a root slash and a trailing slash, with `.` for an emptied
relative path. -/
def normalizeCs (cs : List Char) : List Char :=
  match cs with
  | [] => ['.']
  | c :: rest =>
    let core := joinSegs
      (((splitSlash (c :: rest)).foldl
          (normStep (if c = '/' then false else true)) []).reverse)
    if core = [] then
      if c = '/' then ['/']
      else if (c :: rest).getLast? = some '/' then ['.', '/'] else ['.']
    else if c = '/' then
      '/' :: (if (c :: rest).getLast? = some '/' then core ++ ['/'] else core)
    else if (c :: rest).getLast? = some '/' then core ++ ['/'] else core

/-- `path.join(a, b)` as the program calls it (always two parts):
concatenate the nonempty parts with `/` and normalize; two empty parts
join to `.`. -/
def pathJoin (a b : String) : String :=
  if a = "" then (if b = "" then "." else String.mk (normalizeCs b.data))
  else if b = "" then String.mk (normalizeCs a.data)
  else String.mk (normalizeCs (a.data ++ '/' :: b.data))

/-- The regex metacharacters that give `new RegExp('^' + location)` a
meaning beyond a per-character match (`.` is kept apart: it still
consumes exactly one character). -/
def regexMeta (c : Char) : Bool :=
  c == '\\' || c == '^' || c == '$' || c == '*' || c == '+' || c == '?' ||
  c == '(' || c == ')' || c == '[' || c == ']' || c == '|' ||
  c.toNat == 123 || c.toNat == 125

/-- Anchored matching of a pattern whose characters are literals except
`.`, which matches any single character. -/
def dotMatch : List Char → List Char → Bool
  | [], _ => true
  | _ :: _, [] => false
  | p :: ps, c :: cs => (p == '.' || p == c) && dotMatch ps cs

/-- `file.replace(new RegExp('^' + location), '')` (lines 117 and 125) for
a `location` free of regex metacharacters other than `.`: the anchored
pattern consumes one character per pattern character (each `.` matching
anything), so a match deletes exactly `location.length` characters and a
miss leaves `file` unchanged.  Other metacharacters would change the
pattern's meaning; the path-mapping theorems assume their absence. -/
def chopRoot (file loc : String) : String :=
  if dotMatch loc.data file.data then String.mk (file.data.drop loc.data.length)
  else file

/-- `Template.templateFile(file, location)` (lines 116-119): replace the
leading `location` of `file` with `location/.template`. -/
def templateFile (file location : String) : String :=
  pathJoin location (pathJoin ".template" (chopRoot file location))

/-- `Template.normalFile(templateFile, templateDir, location)` (lines
120-127): replace the leading `templateDir` of `templateFile` with
`location`. -/
def normalFile (tFile templateDir location : String) : String :=
  pathJoin location (chopRoot tFile templateDir)

def isSlash (c : Char) : Bool := c == '/'

def dropLeadSlashes (cs : List Char) : List Char := cs.dropWhile isSlash

def dropRightSlashes (cs : List Char) : List Char :=
  (cs.reverse.dropWhile isSlash).reverse

/-- `path.dirname`, used only to name the directory handed to `mkdirp`. -/
def dirname (p : String) : String :=
  let cs := dropRightSlashes p.data
  let pre := (cs.reverse.dropWhile fun c => c ≠ '/').reverse
  if pre = [] then "."
  else
    let d := dropRightSlashes pre
    if d = [] then "/" else String.mk d

/-- Every `/`-separated segment is a plain name: nonempty and neither `.`
nor `..`. -/
def goodSeg (s : List Char) : Bool := decide (s ≠ [] ∧ s ≠ ['.'] ∧ s ≠ ['.', '.'])

/-- A normalized relative path: plain segments only, so `path.join`'s
normalization has nothing to rewrite below the root. -/
def relNormal (s : String) : Bool := (splitSlash s.data).all goodSeg

/-- An absolute normalized path: a leading `/` followed by plain segments
(no trailing slash, no `.`/`..`, no duplicate slashes) — the shape of
`process.cwd()`. -/
def absNormal (s : String) : Bool :=
  match splitSlash s.data with
  | [] :: seg :: segs => (seg :: segs).all goodSeg
  | _ => false

theorem strExt {a b : String} (h : a.data = b.data) : a = b := by
  cases a
  cases b
  cases h
  rfl

theorem mk_ne_empty {c : Char} {cs : List Char} :
    String.mk (c :: cs) ≠ "" := by
  intro h
  exact absurd (congrArg String.data h) (by simp)

theorem mk_ne_empty' {cs : List Char} (h : cs ≠ []) : String.mk cs ≠ "" :=
  fun hh => h (congrArg String.data hh)

theorem data_append3 (loc rest : String) :
    (loc ++ "/" ++ rest).data = loc.data ++ '/' :: rest.data := by
  rw [String.data_append, String.data_append]
  simp

/- Segment calculus for the normalization proofs. -/

theorem splitSlash_ne_nil (cs : List Char) : splitSlash cs ≠ [] := by
  cases cs with
  | nil => simp [splitSlash]
  | cons c cs =>
    rw [splitSlash]
    split
    · simp
    · split <;> simp

theorem splitSlash_exists_cons (cs : List Char) :
    ∃ s rest, splitSlash cs = s :: rest := by
  cases h : splitSlash cs with
  | nil => exact absurd h (splitSlash_ne_nil cs)
  | cons s rest => exact ⟨s, rest, rfl⟩

theorem splitSlash_slash_cons (cs : List Char) :
    splitSlash ('/' :: cs) = [] :: splitSlash cs := by
  rw [splitSlash, if_pos rfl]

theorem splitSlash_append (xs ys : List Char) :
    splitSlash (xs ++ '/' :: ys) = splitSlash xs ++ splitSlash ys := by
  induction xs with
  | nil => rw [List.nil_append, splitSlash_slash_cons]; rfl
  | cons c xs ih =>
    by_cases hc : c = '/'
    · subst hc
      rw [List.cons_append, splitSlash_slash_cons, splitSlash_slash_cons, ih,
        List.cons_append]
    · rw [List.cons_append, splitSlash, if_neg hc, ih, splitSlash, if_neg hc]
      obtain ⟨s, rest, hsr⟩ := splitSlash_exists_cons xs
      rw [hsr, List.cons_append]
      rfl

theorem joinSegs_cons_of_ne {s : List Char} {M : List (List Char)}
    (h : M ≠ []) : joinSegs (s :: M) = s ++ '/' :: joinSegs M := by
  cases M with
  | nil => exact absurd rfl h
  | cons m M2 => rfl

theorem joinSegs_splitSlash (cs : List Char) :
    joinSegs (splitSlash cs) = cs := by
  induction cs with
  | nil => rfl
  | cons c cs ih =>
    by_cases hc : c = '/'
    · subst hc
      rw [splitSlash_slash_cons,
        joinSegs_cons_of_ne (splitSlash_ne_nil cs), List.nil_append, ih]
    · rw [splitSlash, if_neg hc]
      obtain ⟨s, rest, hsr⟩ := splitSlash_exists_cons cs
      rw [hsr] at ih ⊢
      cases rest with
      | nil => rw [show joinSegs [c :: s] = c :: s from rfl]
               rw [show joinSegs [s] = s from rfl] at ih
               rw [ih]
      | cons r2 rr =>
        rw [joinSegs_cons_of_ne (by simp), List.cons_append]
        rw [joinSegs_cons_of_ne (by simp)] at ih
        rw [ih]

theorem normStep_good {b : Bool} {acc : List (List Char)} {s : List Char}
    (h : goodSeg s = true) : normStep b acc s = s :: acc := by
  have h3 := of_decide_eq_true h
  rw [normStep.eq_def, if_neg (fun hor => hor.elim h3.1 h3.2.1), if_neg h3.2.2]

theorem keep_of_good {s : List Char} (h : goodSeg s = true) :
    keepSeg s = true := by
  have h3 := of_decide_eq_true h
  exact decide_eq_true ⟨h3.1, h3.2.1⟩

theorem foldl_normStep (b : Bool) (segs : List (List Char)) :
    ∀ acc : List (List Char),
      (∀ s ∈ segs, s = [] ∨ goodSeg s = true) →
      segs.foldl (normStep b) acc = (segs.filter keepSeg).reverse ++ acc := by
  induction segs with
  | nil => intro acc h; rfl
  | cons s segs ih =>
    intro acc h
    rw [List.foldl_cons,
      ih (normStep b acc s) (fun t ht => h t (List.mem_cons_of_mem s ht)),
      List.filter_cons]
    rcases h s (List.mem_cons_self s segs) with hs | hs
    · rw [normStep.eq_def, if_pos (Or.inl hs)]
      have hk : keepSeg s = false := by subst hs; rfl
      rw [hk]
      simp
    · rw [normStep_good hs, keep_of_good hs, if_pos rfl, List.reverse_cons,
        List.append_assoc, List.singleton_append]

theorem filter_keepSeg_of_good {L : List (List Char)}
    (h : ∀ s ∈ L, goodSeg s = true) : L.filter keepSeg = L :=
  List.filter_eq_self.mpr fun s hs => keep_of_good (h s hs)

theorem joinSegs_ne_nil {M : List (List Char)} (hM : M ≠ [])
    (h : ∀ s ∈ M, s ≠ []) : joinSegs M ≠ [] := by
  cases M with
  | nil => exact absurd rfl hM
  | cons s M2 =>
    cases M2 with
    | nil => exact h s (List.mem_cons_self s [])
    | cons s2 M3 =>
      rw [joinSegs_cons_of_ne (by simp)]
      simp

theorem joinSegs_append {A B : List (List Char)} (hA : A ≠ []) (hB : B ≠ []) :
    joinSegs (A ++ B) = joinSegs A ++ '/' :: joinSegs B := by
  induction A with
  | nil => exact absurd rfl hA
  | cons s A2 ih =>
    cases A2 with
    | nil =>
      rw [List.singleton_append, joinSegs_cons_of_ne hB]
      rfl
    | cons s2 A3 =>
      rw [List.cons_append,
        joinSegs_cons_of_ne (s := s) (M := (s2 :: A3) ++ B) (by simp),
        ih (by simp),
        joinSegs_cons_of_ne (s := s) (M := s2 :: A3) (by simp),
        List.append_assoc, List.cons_append]

theorem mem_splitSlash_no_slash (cs : List Char) :
    ∀ s ∈ splitSlash cs, ('/' : Char) ∉ s := by
  induction cs with
  | nil =>
    intro s hs
    simp [splitSlash] at hs
    subst hs
    simp
  | cons c cs ih =>
    intro s hs
    by_cases hc : c = '/'
    · subst hc
      rw [splitSlash_slash_cons] at hs
      rcases List.mem_cons.mp hs with h1 | h1
      · subst h1; simp
      · exact ih s h1
    · rw [splitSlash, if_neg hc] at hs
      obtain ⟨s0, rest, hsr⟩ := splitSlash_exists_cons cs
      rw [hsr] at hs
      rcases List.mem_cons.mp hs with h1 | h1
      · subst h1
        intro hmem
        rcases List.mem_cons.mp hmem with h2 | h2
        · exact hc h2.symm
        · exact ih s0 (hsr ▸ List.mem_cons_self s0 rest) h2
      · exact ih s (hsr ▸ List.mem_cons_of_mem s0 h1)

theorem getLast?_append_ne (l1 l2 : List Char) (h : l2 ≠ []) :
    (l1 ++ l2).getLast? = l2.getLast? := by
  rw [← List.head?_reverse, ← List.head?_reverse, List.reverse_append]
  cases h2 : l2.reverse with
  | nil => exact absurd (by simpa using congrArg List.reverse h2) h
  | cons a t => rw [List.cons_append]; rfl

theorem getLast?_cons_ne (a : Char) (l : List Char) (h : l ≠ []) :
    (a :: l).getLast? = l.getLast? :=
  getLast?_append_ne [a] l h

theorem getLast?_mem' :
    ∀ (l : List Char) (a : Char), l.getLast? = some a → a ∈ l := by
  intro l
  induction l with
  | nil => intro a h; cases h
  | cons c t ih =>
    intro a h
    cases t with
    | nil =>
      rw [show ([c] : List Char).getLast? = some c from rfl] at h
      cases h
      simp
    | cons c2 t2 =>
      rw [getLast?_cons_ne c _ (by simp)] at h
      exact List.mem_cons_of_mem c (ih a h)

theorem joinSegs_getLast_ne_slash {M : List (List Char)} (hM : M ≠ [])
    (hne : ∀ s ∈ M, s ≠ []) (hns : ∀ s ∈ M, ('/' : Char) ∉ s) :
    (joinSegs M).getLast? ≠ some '/' := by
  induction M with
  | nil => exact absurd rfl hM
  | cons s M2 ih =>
    cases M2 with
    | nil =>
      intro hl
      exact hns s (List.mem_cons_self s []) (getLast?_mem' s '/' hl)
    | cons s2 M3 =>
      rw [joinSegs_cons_of_ne (by simp),
        getLast?_append_ne _ _ (by simp),
        getLast?_cons_ne _ _
          (joinSegs_ne_nil (by simp) fun t ht => hne t (List.mem_cons_of_mem s ht))]
      exact ih (by simp) (fun t ht => hne t (List.mem_cons_of_mem s ht))
        (fun t ht => hns t (List.mem_cons_of_mem s ht))

theorem dotMatch_self_append (p q : List Char) :
    dotMatch p (p ++ q) = true := by
  induction p with
  | nil => rfl
  | cons c p ih =>
    rw [List.cons_append, dotMatch, ih]
    simp

theorem normalizeCs_good {X : List Char} (hne : X ≠ [])
    (hg : ∀ s ∈ splitSlash X, s = [] ∨ goodSeg s = true)
    (hf : (splitSlash X).filter keepSeg ≠ [])
    (ht : X.getLast? ≠ some '/') :
    normalizeCs X =
      (if X.head? = some '/' then ['/'] else [])
        ++ joinSegs ((splitSlash X).filter keepSeg) := by
  obtain ⟨c, X2, rfl⟩ : ∃ c X2, X = c :: X2 := by
    cases X with
    | nil => exact absurd rfl hne
    | cons c X2 => exact ⟨c, X2, rfl⟩
  have hcore : joinSegs ((splitSlash (c :: X2)).filter keepSeg) ≠ [] := by
    apply joinSegs_ne_nil hf
    intro s hs
    have hk : keepSeg s = true := (List.mem_filter.mp hs).2
    unfold keepSeg at hk
    exact (of_decide_eq_true hk).1
  rw [normalizeCs]
  rw [foldl_normStep _ _ _ hg, List.append_nil, List.reverse_reverse,
    if_neg hcore, List.head?_cons]
  by_cases hc : c = '/'
  · rw [if_pos hc, if_neg ht, if_pos (by rw [hc])]
    rfl
  · rw [if_neg hc, if_neg ht, if_neg (fun h => hc (Option.some.inj h)),
      List.nil_append]

theorem good_ne_nil {s : List Char} (h : goodSeg s = true) : s ≠ [] := by
  unfold goodSeg at h
  exact (of_decide_eq_true h).1

/-- C6 (amended): for an absolute normalized project root free of regex
metacharacters and a nonempty normalized remainder below it, the path
mappings are mutually inverse pure string transformations:
`templateFile` replaces exactly the leading root of the path with the
cache root `pathJoin root ".template"`, and `normalFile` maps the result
back to the original path.  (The restriction is needed: `path.join`
normalizes `.`/`..` segments and duplicate slashes, and the strip is a
regex built from the root, so outside this domain the inverse law fails —
see the counterexample.) -/
theorem template_normal_roundtrip (loc rest : String)
    (hla : absNormal loc = true)
    (hsafe : loc.data.all (fun c => !regexMeta c) = true)
    (hrn : relNormal rest = true) (hr0 : rest ≠ "") :
    templateFile (loc ++ "/" ++ rest) loc
      = pathJoin loc ".template" ++ "/" ++ rest ∧
    normalFile (templateFile (loc ++ "/" ++ rest) loc)
      (pathJoin loc ".template") loc = loc ++ "/" ++ rest := by
  have hla2 := hla
  unfold absNormal at hla2
  split at hla2
  case h_2 => simp at hla2
  case h_1 seg segs heq =>
  have hLg : ∀ s ∈ seg :: segs, goodSeg s = true := List.all_eq_true.mp hla2
  have hLns : ∀ s ∈ seg :: segs, ('/' : Char) ∉ s := fun s hs =>
    mem_splitSlash_no_slash loc.data s
      (by rw [heq]; exact List.mem_cons_of_mem [] hs)
  have hlocd : loc.data = '/' :: joinSegs (seg :: segs) := by
    conv_lhs => rw [← joinSegs_splitSlash loc.data, heq]
    rw [joinSegs_cons_of_ne (by simp), List.nil_append]
  have hlne : loc ≠ "" := by
    intro h
    rw [h] at hlocd
    exact absurd hlocd (by simp)
  have hRg : ∀ s ∈ splitSlash rest.data, goodSeg s = true := by
    rw [relNormal, List.all_eq_true] at hrn
    exact hrn
  have hRns : ∀ s ∈ splitSlash rest.data, ('/' : Char) ∉ s :=
    mem_splitSlash_no_slash rest.data
  have hRd : joinSegs (splitSlash rest.data) = rest.data :=
    joinSegs_splitSlash rest.data
  have hrd0 : rest.data ≠ [] := fun h => hr0 (strExt h)
  have hrl : rest.data.getLast? ≠ some '/' := by
    rw [← hRd]
    exact joinSegs_getLast_ne_slash (splitSlash_ne_nil rest.data)
      (fun s hs => good_ne_nil (hRg s hs)) hRns
  have hTs : splitSlash (".template" : String).data
      = [(".template" : String).data] := rfl
  have hTg : goodSeg (".template" : String).data = true := rfl
  have hTk : keepSeg (".template" : String).data = true := rfl
  -- the regex strip of the root from the full path
  have hchop1 : chopRoot (loc ++ "/" ++ rest) loc
      = String.mk ('/' :: rest.data) := by
    rw [chopRoot, data_append3, if_pos (dotMatch_self_append _ _),
      List.drop_left]
  -- `path.join('.template', '/rest')`
  have hsB : splitSlash ((".template" : String).data ++ '/' :: ('/' :: rest.data))
      = (".template" : String).data :: [] :: splitSlash rest.data := by
    rw [splitSlash_append, hTs, splitSlash_slash_cons, List.singleton_append]
  have hfB : (splitSlash ((".template" : String).data
        ++ '/' :: ('/' :: rest.data))).filter keepSeg
      = (".template" : String).data :: splitSlash rest.data := by
    rw [hsB, List.filter_cons, hTk, if_pos rfl, List.filter_cons,
      show keepSeg ([] : List Char) = false from rfl, if_neg (by simp),
      filter_keepSeg_of_good hRg]
  have hlB : ((".template" : String).data
        ++ '/' :: ('/' :: rest.data)).getLast? ≠ some '/' := by
    rw [getLast?_append_ne _ _ (by simp), getLast?_cons_ne _ _ (by simp),
      getLast?_cons_ne _ _ hrd0]
    exact hrl
  have hgB : ∀ s ∈ splitSlash ((".template" : String).data
        ++ '/' :: ('/' :: rest.data)), s = [] ∨ goodSeg s = true := by
    rw [hsB]
    intro s hs
    rcases List.mem_cons.mp hs with h1 | h1
    · exact Or.inr (by rw [h1]; exact hTg)
    · rcases List.mem_cons.mp h1 with h2 | h2
      · exact Or.inl h2
      · exact Or.inr (hRg s h2)
  have hinner : pathJoin ".template" (String.mk ('/' :: rest.data))
      = String.mk ((".template" : String).data ++ '/' :: rest.data) := by
    rw [pathJoin, if_neg (by decide), if_neg mk_ne_empty]
    refine congrArg String.mk ?_
    show normalizeCs ((".template" : String).data ++ '/' :: ('/' :: rest.data))
      = (".template" : String).data ++ '/' :: rest.data
    rw [normalizeCs_good (by simp) hgB (by rw [hfB]; simp) hlB, hfB,
      show ((".template" : String).data
        ++ '/' :: ('/' :: rest.data)).head? = some '.' from rfl,
      if_neg (by decide), List.nil_append,
      joinSegs_cons_of_ne (splitSlash_ne_nil rest.data), hRd]
  -- `path.join(loc, '.template/rest')`
  have hsC : splitSlash (loc.data
        ++ '/' :: ((".template" : String).data ++ '/' :: rest.data))
      = ([] :: seg :: segs)
          ++ ((".template" : String).data :: splitSlash rest.data) := by
    rw [splitSlash_append, heq, splitSlash_append, hTs, List.singleton_append]
  have hfC : (splitSlash (loc.data
        ++ '/' :: ((".template" : String).data ++ '/' :: rest.data))).filter keepSeg
      = (seg :: segs)
          ++ ((".template" : String).data :: splitSlash rest.data) := by
    rw [hsC, List.filter_append, List.filter_cons,
      show keepSeg ([] : List Char) = false from rfl, if_neg (by simp),
      filter_keepSeg_of_good hLg, List.filter_cons, hTk, if_pos rfl,
      filter_keepSeg_of_good hRg]
  have hlC : (loc.data
        ++ '/' :: ((".template" : String).data ++ '/' :: rest.data)).getLast?
      ≠ some '/' := by
    rw [getLast?_append_ne _ _ (by simp), getLast?_cons_ne _ _ (by simp),
      getLast?_append_ne _ _ (by simp), getLast?_cons_ne _ _ hrd0]
    exact hrl
  have hgC : ∀ s ∈ splitSlash (loc.data
        ++ '/' :: ((".template" : String).data ++ '/' :: rest.data)),
      s = [] ∨ goodSeg s = true := by
    rw [hsC]
    intro s hs
    rcases List.mem_append.mp hs with h1 | h1
    · rcases List.mem_cons.mp h1 with h2 | h2
      · exact Or.inl h2
      · exact Or.inr (hLg s h2)
    · rcases List.mem_cons.mp h1 with h2 | h2
      · exact Or.inr (by rw [h2]; exact hTg)
      · exact Or.inr (hRg s h2)
  have houter : pathJoin loc
        (String.mk ((".template" : String).data ++ '/' :: rest.data))
      = String.mk (loc.data
          ++ '/' :: ((".template" : String).data ++ '/' :: rest.data)) := by
    rw [pathJoin, if_neg hlne, if_neg (mk_ne_empty' (by simp))]
    refine congrArg String.mk ?_
    show normalizeCs (loc.data
        ++ '/' :: ((".template" : String).data ++ '/' :: rest.data)) = _
    rw [normalizeCs_good (by simp) hgC (by rw [hfC]; simp) hlC, hfC, hlocd, List.cons_append,
      List.head?_cons, if_pos rfl,
      joinSegs_append (by simp) (by simp),
      joinSegs_cons_of_ne (splitSlash_ne_nil rest.data), hRd,
      List.singleton_append]
  -- `path.join(loc, '.template')`
  have hsD : splitSlash (loc.data ++ '/' :: (".template" : String).data)
      = ([] :: seg :: segs) ++ [(".template" : String).data] := by
    rw [splitSlash_append, heq, hTs]
  have hfD : (splitSlash (loc.data
        ++ '/' :: (".template" : String).data)).filter keepSeg
      = (seg :: segs) ++ [(".template" : String).data] := by
    rw [hsD, List.filter_append, List.filter_cons,
      show keepSeg ([] : List Char) = false from rfl, if_neg (by simp),
      filter_keepSeg_of_good hLg, List.filter_cons, hTk, if_pos rfl]
    rfl
  have hlD : (loc.data ++ '/' :: (".template" : String).data).getLast?
      ≠ some '/' := by
    rw [getLast?_append_ne _ _ (by simp)]
    decide
  have hgD : ∀ s ∈ splitSlash (loc.data ++ '/' :: (".template" : String).data),
      s = [] ∨ goodSeg s = true := by
    rw [hsD]
    intro s hs
    rcases List.mem_append.mp hs with h1 | h1
    · rcases List.mem_cons.mp h1 with h2 | h2
      · exact Or.inl h2
      · exact Or.inr (hLg s h2)
    · rw [List.mem_singleton.mp h1]
      exact Or.inr hTg
  have htdir : pathJoin loc ".template"
      = String.mk (loc.data ++ '/' :: (".template" : String).data) := by
    rw [pathJoin, if_neg hlne, if_neg (by decide)]
    refine congrArg String.mk ?_
    show normalizeCs (loc.data ++ '/' :: (".template" : String).data) = _
    rw [normalizeCs_good (by simp) hgD (by rw [hfD]; simp) hlD, hfD, hlocd, List.cons_append,
      List.head?_cons, if_pos rfl,
      joinSegs_append (by simp) (by simp),
      show joinSegs [(".template" : String).data]
        = (".template" : String).data from rfl,
      List.singleton_append]
  -- the regex strip of the cache root from the mapped path
  have hshape : loc.data ++ '/' :: ((".template" : String).data ++ '/' :: rest.data)
      = (loc.data ++ '/' :: (".template" : String).data) ++ '/' :: rest.data := by
    simp
  have hchop2 : chopRoot
      (String.mk (loc.data
        ++ '/' :: ((".template" : String).data ++ '/' :: rest.data)))
      (String.mk (loc.data ++ '/' :: (".template" : String).data))
      = String.mk ('/' :: rest.data) := by
    unfold chopRoot
    rw [show (String.mk (loc.data
          ++ '/' :: ((".template" : String).data ++ '/' :: rest.data))).data
        = (loc.data ++ '/' :: (".template" : String).data) ++ '/' :: rest.data
        from hshape,
      if_pos (dotMatch_self_append _ _), List.drop_left]
  -- `path.join(loc, '/rest')`
  have hsF : splitSlash (loc.data ++ '/' :: ('/' :: rest.data))
      = ([] :: seg :: segs) ++ ([] :: splitSlash rest.data) := by
    rw [splitSlash_append, heq, splitSlash_slash_cons]
  have hfF : (splitSlash (loc.data ++ '/' :: ('/' :: rest.data))).filter keepSeg
      = (seg :: segs) ++ splitSlash rest.data := by
    rw [hsF, List.filter_append, List.filter_cons,
      show keepSeg ([] : List Char) = false from rfl, if_neg (by simp),
      filter_keepSeg_of_good hLg, List.filter_cons,
      show keepSeg ([] : List Char) = false from rfl,
      if_neg (by simp), filter_keepSeg_of_good hRg]
  have hlF : (loc.data ++ '/' :: ('/' :: rest.data)).getLast? ≠ some '/' := by
    rw [getLast?_append_ne _ _ (by simp), getLast?_cons_ne _ _ (by simp),
      getLast?_cons_ne _ _ hrd0]
    exact hrl
  have hgF : ∀ s ∈ splitSlash (loc.data ++ '/' :: ('/' :: rest.data)),
      s = [] ∨ goodSeg s = true := by
    rw [hsF]
    intro s hs
    rcases List.mem_append.mp hs with h1 | h1
    · rcases List.mem_cons.mp h1 with h2 | h2
      · exact Or.inl h2
      · exact Or.inr (hLg s h2)
    · rcases List.mem_cons.mp h1 with h2 | h2
      · exact Or.inl h2
      · exact Or.inr (hRg s h2)
  have hfinal : pathJoin loc (String.mk ('/' :: rest.data))
      = String.mk (loc.data ++ '/' :: rest.data) := by
    rw [pathJoin, if_neg hlne, if_neg mk_ne_empty]
    refine congrArg String.mk ?_
    show normalizeCs (loc.data ++ '/' :: ('/' :: rest.data)) = _
    rw [normalizeCs_good (by simp) hgF (by rw [hfF]; simp) hlF, hfF, hlocd, List.cons_append,
      List.head?_cons, if_pos rfl,
      joinSegs_append (by simp) (splitSlash_ne_nil rest.data), hRd,
      List.singleton_append, List.cons_append]
  have htf : templateFile (loc ++ "/" ++ rest) loc
      = String.mk (loc.data
          ++ '/' :: ((".template" : String).data ++ '/' :: rest.data)) := by
    rw [templateFile, hchop1, hinner, houter]
  constructor
  · rw [htf, htdir]
    apply strExt
    rw [data_append3]
    simp
  · rw [normalFile, htf, htdir, hchop2, hfinal]
    apply strExt
    rw [data_append3]

/-- C6 (counterexample to the original inverse law): the path
`"/proj/../x"` has the project root `"/proj"` as a leading prefix, yet
the mappings are not inverse on it — `path.join` normalizes the `..`
away, so `templateFile` sends it to `"/proj/x"`, whose leading
`"/proj/.template"` then fails to match, and `normalFile` returns
`"/proj/proj/x"`, not the original path. -/
theorem template_normal_not_inverse :
    templateFile "/proj/../x" "/proj" = "/proj/x" ∧
    normalFile (templateFile "/proj/../x" "/proj")
        (pathJoin "/proj" ".template") "/proj" = "/proj/proj/x" ∧
    ("/proj/proj/x" : String) ≠ "/proj/../x" := ⟨rfl, rfl, by decide⟩

/-- A directory entry as reported by
`fs.readdir(location, {withFileTypes: true})`: a regular file or a
directory with its own entries. -/
inductive FsEntry where
  | file (name : String)
  | dir (name : String) (children : List FsEntry)

def entryName : FsEntry → String
  | .file n => n
  | .dir n _ => n

/- `Template.files` (lines 58-77): recursive walk collecting the full
locations of all non-ignored regular files.  `ignore.includes(entry.name)`
is strict equality against the ignore list's elements, so only string
elements can match a name (`strIncl`).  The code's concurrent fan-out
pushes paths in completion order; the model fixes the left-to-right,
depth-first order (the collection's order is immaterial to the claims). -/

mutual

def filesL (ign : List JVal) : List FsEntry → String → List String
  | [], _ => []
  | e :: rest, loc => filesEntry ign e loc ++ filesL ign rest loc

def filesEntry (ign : List JVal) : FsEntry → String → List String
  | .file n, loc => if strIncl ign n then [] else [pathJoin loc n]
  | .dir n children, loc =>
    if strIncl ign n then [] else filesL ign children (pathJoin loc n)

end

theorem filesL_nil (ign : List JVal) (loc : String) :
    filesL ign [] loc = [] := rfl

theorem filesL_cons (ign : List JVal) (e : FsEntry) (rest : List FsEntry)
    (loc : String) :
    filesL ign (e :: rest) loc = filesEntry ign e loc ++ filesL ign rest loc := rfl

/- `segs` is a chain of directory names ending at a regular file within
the given entries. -/

mutual

def reachesFile : List FsEntry → List String → Bool
  | _, [] => false
  | [], _ :: _ => false
  | e :: rest, s :: srest =>
    reachesEntry e s srest || reachesFile rest (s :: srest)

def reachesEntry : FsEntry → String → List String → Bool
  | .file n, s, [] => n == s
  | .dir n ch, s, s2 :: srest2 => n == s && reachesFile ch (s2 :: srest2)
  | _, _, _ => false

end

theorem reachesFile_cons (e : FsEntry) (rest : List FsEntry) (s : String)
    (srest : List String) :
    reachesFile (e :: rest) (s :: srest)
      = (reachesEntry e s srest || reachesFile rest (s :: srest)) := rfl

theorem reachesFile_nil (entries : List FsEntry) :
    reachesFile entries [] = false := by
  cases entries with
  | nil => rfl
  | cons e rest => rfl

mutual

theorem filesL_spec_aux {ign : List JVal} (entries : List FsEntry)
    (loc p : String) (hp : p ∈ filesL ign entries loc) :
    ∃ segs : List String, segs ≠ [] ∧
      p = segs.foldl pathJoin loc ∧
      (∀ s ∈ segs, strIncl ign s = false) ∧
      reachesFile entries segs = true := by
  match entries with
  | [] =>
    rw [filesL_nil] at hp
    cases hp
  | e :: rest =>
    rw [filesL_cons] at hp
    rcases List.mem_append.mp hp with hleft | hright
    · obtain ⟨s, srest, hfold, hni, hre⟩ := filesEntry_spec_aux e loc p hleft
      refine ⟨s :: srest, by simp, hfold, hni, ?_⟩
      rw [reachesFile_cons, hre]
      simp
    · obtain ⟨segs, hne, hfold, hni, hreach⟩ :=
        filesL_spec_aux rest loc p hright
      refine ⟨segs, hne, hfold, hni, ?_⟩
      match segs, hne, hreach with
      | s :: srest, _, hreach =>
        rw [reachesFile_cons, hreach]
        simp

theorem filesEntry_spec_aux {ign : List JVal} (e : FsEntry)
    (loc p : String) (hp : p ∈ filesEntry ign e loc) :
    ∃ (s : String) (srest : List String),
      p = (s :: srest).foldl pathJoin loc ∧
      (∀ s2 ∈ s :: srest, strIncl ign s2 = false) ∧
      reachesEntry e s srest = true := by
  match e with
  | .file n =>
    rw [filesEntry] at hp
    by_cases hig : strIncl ign n = true
    · rw [if_pos hig] at hp
      cases hp
    · rw [Bool.not_eq_true] at hig
      rw [if_neg (by rw [hig]; exact Bool.false_ne_true)] at hp
      rcases List.mem_singleton.mp hp with rfl
      refine ⟨n, [], rfl, ?_, ?_⟩
      · intro s hs
        rcases List.mem_singleton.mp hs with rfl
        exact hig
      · rw [reachesEntry]
        simp
  | .dir n children =>
    rw [filesEntry] at hp
    by_cases hig : strIncl ign n = true
    · rw [if_pos hig] at hp
      cases hp
    · rw [Bool.not_eq_true] at hig
      rw [if_neg (by rw [hig]; exact Bool.false_ne_true)] at hp
      obtain ⟨segs, hne, hfold, hni, hreach⟩ :=
        filesL_spec_aux children (pathJoin loc n) p hp
      match segs, hne, hfold, hni, hreach with
      | s :: srest, _, hfold, hni, hreach =>
        refine ⟨n, s :: srest, hfold, ?_, ?_⟩
        · intro s2 hs2
          rcases List.mem_cons.mp hs2 with rfl | hs3
          · exact hig
          · exact hni s2 hs3
        · rw [reachesEntry, hreach]
          simp

end

/-- C9: every path returned by the tree walk decomposes into a nonempty
chain of path segments below the root in which no segment's basename is in
the ignore set (so no returned path passes through an ignored directory
and no ignored file is returned), and the chain ends at a regular file —
directory entries are never returned. -/
theorem files_ignore_spec {ign : List JVal} (entries : List FsEntry)
    (loc p : String) (hp : p ∈ filesL ign entries loc) :
    ∃ segs : List String, segs ≠ [] ∧
      p = segs.foldl pathJoin loc ∧
      (∀ s ∈ segs, strIncl ign s = false) ∧
      reachesFile entries segs = true :=
  filesL_spec_aux entries loc p hp

/- `JSON.stringify(value, null, 2)` (lines 160 and 166).  Fields are
rendered in list order; JavaScript would put integer-like keys first, but
no value in the claims carries integer-like keys.  Escaping covers the
JSON two-character escapes and `\\u00xx` control escapes. -/

def hexDigit (n : Nat) : Char :=
  if n < 10 then Char.ofNat (48 + n) else Char.ofNat (87 + n)

def escChar (c : Char) : String :=
  if c = '"' then "\\\""
  else if c = '\\' then "\\\\"
  else if c = '\n' then "\\n"
  else if c = '\r' then "\\r"
  else if c = '\t' then "\\t"
  else if c = Char.ofNat 8 then "\\b"
  else if c = Char.ofNat 12 then "\\f"
  else if c.toNat < 32 then
    String.mk ['\\', 'u', '0', '0', hexDigit (c.toNat / 16), hexDigit (c.toNat % 16)]
  else String.mk [c]

def quoteJ (s : String) : String :=
  "\"" ++ String.join (s.data.map escChar) ++ "\""

def spacesN (n : Nat) : String := String.mk (List.replicate n ' ')

mutual

def stringifyAt : Nat → JVal → String
  | _, .null => "null"
  | _, .bool b => cond b "true" "false"
  | _, .num n => toString n
  | _, .str s => quoteJ s
  | d, .arr es =>
    match es with
    | [] => "[]"
    | e :: rest =>
      "[\n" ++ stringifyElems (d + 1) (e :: rest) ++ "\n" ++ spacesN (2 * d) ++ "]"
  | d, .obj fs =>
    match fs with
    | [] => "\x7b\x7d"
    | kv :: rest =>
      "\x7b\n" ++ stringifyFields (d + 1) (kv :: rest) ++ "\n" ++ spacesN (2 * d)
        ++ "\x7d"

def stringifyElems : Nat → List JVal → String
  | _, [] => ""
  | d, [e] => spacesN (2 * d) ++ stringifyAt d e
  | d, e :: e2 :: rest =>
    spacesN (2 * d) ++ stringifyAt d e ++ ",\n" ++ stringifyElems d (e2 :: rest)

def stringifyFields : Nat → List (String × JVal) → String
  | _, [] => ""
  | d, [kv] => spacesN (2 * d) ++ quoteJ kv.1 ++ ": " ++ stringifyAt d kv.2
  | d, kv :: kv2 :: rest =>
    spacesN (2 * d) ++ quoteJ kv.1 ++ ": " ++ stringifyAt d kv.2 ++ ",\n"
      ++ stringifyFields d (kv2 :: rest)

end

def jsonStringify (v : JVal) : String := stringifyAt 0 v

/- The orchestration (`Template.config`, `clone`, `mergeJson`, `main`,
lines 43-57 and 107-197) is modelled over an explicit world: a
path-indexed file store, the set of existing directories, the project
directory tree as the walker sees it, and the template repository's
contents installed by a successful clone.  Effects record every
filesystem mutation and the external `git clone` invocation. -/

/-- A stored file: a JSON document (held parsed — `readJson` returns its
parse) or non-JSON text (held raw — `JSON.parse` fails on it). -/
inductive FileData where
  | jsonData (v : JVal)
  | textData (s : String)

structure World where
  files : List (String × FileData)
  dirs : List String
  projectTree : List FsEntry
  repo : List (String × FileData)
  repoTree : List FsEntry
  cloneOk : Bool

inductive Effect where
  | rmdirRec (p : String)
  | gitClone (repo : JVal) (location : String)
  | mkdirpE (p : String)
  | writeFileE (p : String) (contents : String)
  | copyFileE (src dst : String)

inductive TErr where
  | configMissingSource
  | jsTypeError
  | jsRangeError
  | cloneFailed
  | invalidSubCommand
  deriving DecidableEq

def ofMergeErr : MergeErr → TErr
  | .typeError => .jsTypeError
  | .rangeError => .jsRangeError

def lookupFile (fs : List (String × FileData)) (p : String) : Option FileData :=
  (fs.find? fun f => f.1 == p).map Prod.snd

def setFile (fs : List (String × FileData)) (p : String) (d : FileData) :
    List (String × FileData) :=
  match fs with
  | [] => [(p, d)]
  | f :: rest => if f.1 = p then (p, d) :: rest else f :: setFile rest p d

/-- `Template.readJson` (lines 27-34): parse the file, with `{}` on any
read or parse failure (absent file, or non-JSON text). -/
def readJson (w : World) (p : String) : JVal :=
  match lookupFile w.files p with
  | some (.jsonData v) => v
  | some (.textData _) => .obj []
  | none => .obj []

/-- `Template.readGitIgnore` (lines 35-42): split the text on newlines and
drop falsy (empty) lines; `[]` on read failure.  A `jsonData` file's raw
bytes are not represented, so it also reads as `[]` (the program never
keeps its ignore file as JSON). -/
def readGitIgnore (w : World) (p : String) : List String :=
  match lookupFile w.files p with
  | some (.textData s) => (s.split fun c => c = '\n').filter fun i => i != ""
  | _ => []

def truthyOpt : Option JVal → Bool
  | none => false
  | some v => truthy v

/-- The resolved configuration `{...config, ignore}` as `Template.main`
destructures it: the `source` and `json` fields and the assembled ignore
list. -/
structure ConfigR where
  source : JVal
  ignore : List JVal
  json : Option JVal

/-- `Template.config` (lines 43-57).  Reads `template.json` (default `{}`)
and `.gitignore` (default `[]`), throws `'config is missing source'` when
`config.source` is falsy (reading a property of a `null` config throws a
`TypeError` first), then assembles
`[...gitignore, ...ignoreJson, ...defaultIgnore, ...(config.ignore ?? [])]`.
`(config.json ?? []).map(j => j.name)` throws a `TypeError` for a truthy
non-array `json`; elements without a `name` contribute `undefined`, which
never equals an entry name string and is dropped from the model.  A truthy
non-array `config.ignore` cannot be spread (`TypeError`), except a string,
which spreads into its characters. -/
def configM (w : World) (loc : String) : Except TErr ConfigR :=
  let cfg := readJson w (pathJoin loc "template.json")
  let gitignore := readGitIgnore w (pathJoin loc ".gitignore")
  match cfg with
  | .null => .error .jsTypeError
  | cfg =>
    if truthyOpt (getJ cfg "source") = false then .error .configMissingSource
    else
      match
        (match getJ cfg "json" with
         | none => Except.ok ([] : List JVal)
         | some v =>
           if truthy v then
             match v with
             | .arr es => .ok es
             | _ => .error TErr.jsTypeError
           else .ok []) with
      | .error e => .error e
      | .ok jsonArr =>
        match
          (match getJ cfg "ignore" with
           | none => Except.ok ([] : List JVal)
           | some v =>
             if truthy v then
               match v with
               | .arr es => .ok es
               | .str s => .ok (s.data.map fun c => JVal.str (String.mk [c]))
               | _ => .error TErr.jsTypeError
             else .ok []) with
        | .error e => .error e
        | .ok cfgIgnore =>
          .ok { source := (getJ cfg "source").getD .null
                ignore := (gitignore.map JVal.str)
                    ++ (jsonArr.filterMap fun j => getJ j "name")
                    ++ [JVal.str ".git", JVal.str ".template"]
                    ++ cfgIgnore
                json := getJ cfg "json" }

/-- `Template.clone` (lines 107-115): best-effort recursive removal of the
cache directory (the `ENOENT` throw of `readdir` is swallowed, so the
removal effect appears only when the directory exists), then
`git -C location clone repo .template`, which installs the repository
contents under the cache directory on success and rejects otherwise. -/
def rmTemplateDir (w : World) (loc : String) : World × List Effect :=
  let tDir := pathJoin loc ".template"
  if w.dirs.contains tDir then
    ({ w with
        dirs := w.dirs.filter fun d =>
          !(tDir ++ "/").data.isPrefixOf d.data && d != tDir
        files := w.files.filter fun f =>
          !(tDir ++ "/").data.isPrefixOf f.1.data },
      [Effect.rmdirRec tDir])
  else (w, [])

def cloneM (w : World) (source : JVal) (loc : String) :
    World × List Effect × Except TErr Unit :=
  let tDir := pathJoin loc ".template"
  let rm := rmTemplateDir w loc
  if w.cloneOk then
    ({ rm.1 with
        dirs := rm.1.dirs ++ [tDir]
        files := rm.1.files ++ w.repo.map fun f => (pathJoin tDir f.1, f.2) },
      rm.2 ++ [Effect.gitClone source loc], .ok ())
  else (rm.1, rm.2 ++ [Effect.gitClone source loc], .error .cloneFailed)

/-- `keys.includes(curr)` where `keys` may be `undefined` (an absent
`ignoreKeys`): reading `includes` of `undefined` throws. -/
def includesKeyO : Option JVal → String → Except MergeErr Bool
  | none, _ => .error .typeError
  | some v, k => includesKey v k

/-- `Template.omit` applied to a possibly-`undefined` `keys` argument: the
throw happens inside the reduce, so an object with no keys never reaches
it. -/
def omitKeysO (ik : Option JVal) (obj : JVal) : Except MergeErr JVal :=
  (ownProps obj).bind fun ps =>
    (ps.foldlM
      (fun acc p =>
        (includesKeyO ik p.key).map fun b =>
          if b then acc else insertField acc p.key p.val)
      []).map .obj

theorem omitKeysO_some (ik obj : JVal) :
    omitKeysO (some ik) obj = omitKeys ik obj := rfl

/-- One configured file of `Template.mergeJson` (lines 150-169):
destructure `ignoreKeys` (throws on a `null` spec), build the two paths
(`path.join` throws unless `name` is a string), read both sides with the
`{}` fallback, compute both omitted views, and in the commit/pull
directions write the 2-space-indented merge to the template/project side
(`mkdirp` of the parent directory first).  With any other command nothing
is written. -/
def mergeOne (w : World) (loc cmd : String) (spec : JVal) :
    Except TErr (World × List Effect) :=
  match spec with
  | .null => .error .jsTypeError
  | spec =>
    let ik := getJ spec "ignoreKeys"
    match getJ spec "name" with
    | some (.str name) =>
      let file := pathJoin loc name
      let tFile := templateFile file loc
      let fileJSON := readJson w file
      let templateFileJSON := readJson w tFile
      match (omitKeysO ik fileJSON).mapError ofMergeErr with
      | .error e => .error e
      | .ok iFileJSON =>
        match (omitKeysO ik templateFileJSON).mapError ofMergeErr with
        | .error e => .error e
        | .ok iTemplateFileJSON =>
          if cmd = "commit" then
            match (deepMerge templateFileJSON iFileJSON).mapError ofMergeErr with
            | .error e => .error e
            | .ok json =>
              .ok ({ w with
                      files := setFile w.files tFile (.jsonData json)
                      dirs := w.dirs ++ [dirname tFile] },
                [Effect.mkdirpE (dirname tFile),
                  Effect.writeFileE tFile (jsonStringify json)])
          else if cmd = "pull" then
            match (deepMerge fileJSON iTemplateFileJSON).mapError ofMergeErr with
            | .error e => .error e
            | .ok json =>
              .ok ({ w with
                      files := setFile w.files file (.jsonData json)
                      dirs := w.dirs ++ [dirname file] },
                [Effect.mkdirpE (dirname file),
                  Effect.writeFileE file (jsonStringify json)])
          else .ok (w, [])
    | _ => .error .jsTypeError

/-- `Template.mergeJson` (lines 148-172): `json || []` must be an array
(a truthy non-array has no usable `.map`), then every configured file is
processed.  The code runs the files concurrently under `Promise.all`; the
model processes them left to right, which fixes an effect order and, on a
failure, omits the effects of sibling files (`Promise.all` rejects with
the first failure). -/
def mergeJsonM (w : World) (json : Option JVal) (loc cmd : String) :
    Except TErr (World × List Effect) :=
  match
    (match json with
     | none => Except.ok ([] : List JVal)
     | some v =>
       if truthy v then
         match v with
         | .arr es => .ok es
         | _ => .error TErr.jsTypeError
       else .ok []) with
  | .error e => .error e
  | .ok jsonFiles =>
    jsonFiles.foldlM
      (fun acc spec =>
        (mergeOne acc.1 loc cmd spec).map fun r => (r.1, acc.2 ++ r.2))
      (w, ([] : List Effect))

/-- `Template.main` (lines 173-197): config, clone, JSON merge, then the
command dispatch — commit copies every walked project file onto its
mirrored template path, pull copies every walked template file onto its
mirrored project path, and any other command throws
`'invalid sub-command'` only after config, clone and merge have run. -/
def mainM (w : World) (loc cmd : String) :
    Except TErr Unit × World × List Effect :=
  match configM w loc with
  | .error e => (.error e, w, [])
  | .ok cfg =>
    let cl := cloneM w cfg.source loc
    match cl.2.2 with
    | .error e => (.error e, cl.1, cl.2.1)
    | .ok _ =>
      match mergeJsonM cl.1 cfg.json loc cmd with
      | .error e => (.error e, cl.1, cl.2.1)
      | .ok (w2, ef2) =>
        if cmd = "commit" then
          let fpaths := filesL cfg.ignore w2.projectTree loc
          (.ok (),
            { w2 with
                files := fpaths.foldl
                  (fun acc f =>
                    match lookupFile acc f with
                    | some d => setFile acc (templateFile f loc) d
                    | none => acc)
                  w2.files },
            cl.2.1 ++ ef2 ++ fpaths.flatMap fun f =>
              [Effect.mkdirpE (dirname (templateFile f loc)),
                Effect.copyFileE f (templateFile f loc)])
        else if cmd = "pull" then
          let tDir := pathJoin loc ".template"
          let fpaths := filesL cfg.ignore w2.repoTree tDir
          (.ok (),
            { w2 with
                files := fpaths.foldl
                  (fun acc f =>
                    match lookupFile acc f with
                    | some d => setFile acc (normalFile f tDir loc) d
                    | none => acc)
                  w2.files },
            cl.2.1 ++ ef2 ++ fpaths.flatMap fun f =>
              [Effect.mkdirpE (dirname (normalFile f tDir loc)),
                Effect.copyFileE f (normalFile f tDir loc)])
        else (.error .invalidSubCommand, w2, cl.2.1 ++ ef2)

/-- C2: evaluation of `deepMerge` at the failing input.  The spec promises
that a key absent from the target is treated as an empty structure, but
`deepMerge({}, {a: {b: 1}})` evaluates `deepMerge(undefined, {b: 1})`
whose `Object.assign(undefined, ...)` throws a `TypeError` — the merge
fails instead of producing `{a: {b: 1}}`. -/
theorem deepMerge_absent_structured_throws :
    deepMerge (.obj []) (.obj [("a", .obj [("b", .num 1)])])
      = .error .typeError := rfl

/-- C3 (counterexample): with target `{a: [1, 2]}` and source `{a: [9]}`
the merge succeeds and yields `{a: [9, 2]}`, not the source array `[9]` —
arrays recurse through the `instanceof Object` branch and are merged
index-by-index, not replaced wholesale. -/
theorem deepMerge_array_not_atomic :
    deepMerge (.obj [("a", .arr [.num 1, .num 2])])
        (.obj [("a", .arr [.num 9])])
      = .ok (.obj [("a", .arr [.num 9, .num 2])]) ∧
    JVal.arr [.num 9, .num 2] ≠ JVal.arr [.num 9] :=
  ⟨rfl, by simp⟩

/- The concrete commit scenario of C4. -/

def c4Project : JVal := .obj [("version", .str "1.0.0"), ("name", .str "app")]

def c4Template : JVal :=
  .obj [("version", .str "0.9.0"), ("name", .str "template-app"),
    ("license", .str "MIT")]

def c4Merged : JVal :=
  .obj [("version", .str "0.9.0"), ("name", .str "app"),
    ("license", .str "MIT")]

def c4World : World :=
  { files := [("/proj/pkg.json", .jsonData c4Project),
      ("/proj/.template/pkg.json", .jsonData c4Template)]
    dirs := ["/proj", "/proj/.template"]
    projectTree := []
    repo := []
    repoTree := []
    cloneOk := true }

def c4Spec : JVal :=
  .obj [("name", .str "pkg.json"), ("ignoreKeys", .arr [.str "version"])]

/-- C4: the commit-direction JSON merge for the configured file `pkg.json`
with `ignoreKeys = ["version"]`, project side
`{"version":"1.0.0","name":"app"}` and template side
`{"version":"0.9.0","name":"template-app","license":"MIT"}`, writes the
template file `{"version":"0.9.0","name":"app","license":"MIT"}` (the
ignored `version` keeps the template's value, the shared `name` takes the
project's value, the template-only `license` is preserved), serialized
with 2-space indentation. -/
theorem mergeJson_commit_scenario :
    mergeOne c4World "/proj" "commit" c4Spec
      = .ok ({ c4World with
          files := [("/proj/pkg.json", .jsonData c4Project),
            ("/proj/.template/pkg.json", .jsonData c4Merged)]
          dirs := ["/proj", "/proj/.template", "/proj/.template"] },
        [Effect.mkdirpE "/proj/.template",
          Effect.writeFileE "/proj/.template/pkg.json"
            "\x7b\n  \"version\": \"0.9.0\",\n  \"name\": \"app\",\n  \"license\": \"MIT\"\n\x7d"]) := rfl

/- Support lemmas for the orchestration claims. -/

theorem rmTemplateDir_effects (w : World) (loc : String) :
    ∀ e ∈ (rmTemplateDir w loc).2,
      e = Effect.rmdirRec (pathJoin loc ".template") := by
  unfold rmTemplateDir
  dsimp only
  split <;> intro e he <;> simp at he
  rw [he]

theorem cloneM_result_ok {w : World} {s : JVal} {loc : String}
    (h : w.cloneOk = true) : (cloneM w s loc).2.2 = .ok () := by
  unfold cloneM
  rw [h]
  rfl

theorem cloneM_clone_mem (w : World) (s : JVal) (loc : String) :
    Effect.gitClone s loc ∈ (cloneM w s loc).2.1 := by
  unfold cloneM
  dsimp only
  split <;> exact List.mem_append_right _ (List.mem_singleton.mpr rfl)

theorem cloneM_effects (w : World) (s : JVal) (loc : String) :
    ∀ e ∈ (cloneM w s loc).2.1,
      e = Effect.rmdirRec (pathJoin loc ".template") ∨
        e = Effect.gitClone s loc := by
  unfold cloneM
  dsimp only
  split <;> intro e he <;>
    rcases List.mem_append.mp he with hl | hr
  · exact Or.inl (rmTemplateDir_effects w loc e hl)
  · exact Or.inr (List.mem_singleton.mp hr)
  · exact Or.inl (rmTemplateDir_effects w loc e hl)
  · exact Or.inr (List.mem_singleton.mp hr)

theorem mergeOne_invalid {loc cmd : String} {spec : JVal} {w : World}
    {r : World × List Effect} (hc1 : cmd ≠ "commit") (hc2 : cmd ≠ "pull")
    (h : mergeOne w loc cmd spec = .ok r) : r = (w, []) := by
  unfold mergeOne at h
  dsimp only at h
  repeat' split at h
  all_goals first
    | (exact absurd (by assumption) hc1)
    | (exact absurd (by assumption) hc2)
    | (cases h <;> rfl)

theorem foldMerge_invalid {loc cmd : String} (hc1 : cmd ≠ "commit")
    (hc2 : cmd ≠ "pull") :
    ∀ (specs : List JVal) (w : World) (efs : List Effect)
      (r : World × List Effect),
      specs.foldlM
        (fun acc spec =>
          (mergeOne acc.1 loc cmd spec).map fun r2 => (r2.1, acc.2 ++ r2.2))
        (w, efs) = .ok r →
      r = (w, efs) := by
  intro specs
  induction specs with
  | nil =>
    intro w efs r h
    rw [List.foldlM_nil] at h
    injection h with h2
    exact h2.symm
  | cons spec rest ih =>
    intro w efs r h
    rw [List.foldlM_cons] at h
    rcases hm : mergeOne w loc cmd spec with e | r1
    · rw [hm] at h
      cases h
    · rw [hm] at h
      have hr1 : r1 = (w, []) := mergeOne_invalid hc1 hc2 hm
      subst hr1
      have h2 : rest.foldlM
          (fun acc spec =>
            (mergeOne acc.1 loc cmd spec).map fun r2 => (r2.1, acc.2 ++ r2.2))
          (w, efs ++ []) = .ok r := h
      rw [ih w (efs ++ []) r h2, List.append_nil]

theorem mergeJsonM_invalid {loc cmd : String} (hc1 : cmd ≠ "commit")
    (hc2 : cmd ≠ "pull") {w : World} {json : Option JVal}
    {r : World × List Effect} (h : mergeJsonM w json loc cmd = .ok r) :
    r = (w, []) := by
  unfold mergeJsonM at h
  split at h
  · cases h
  · exact foldMerge_invalid hc1 hc2 _ w [] r h

/-- C7: for a command that is neither `commit` nor `pull`, `main` fails
with the `'invalid sub-command'` error, and only after the configuration
has loaded and the clone of the template cache has run: the recorded
effects of the failing run contain the `git clone` invocation.  The
hypotheses say the run got that far: the configuration resolves, the
clone succeeds, and the merge phase (which writes nothing for such a
command) raises no error. -/
theorem main_invalid_command {w : World} {loc cmd : String} {cfg : ConfigR}
    {w2 : World} {ef2 : List Effect}
    (hc1 : cmd ≠ "commit") (hc2 : cmd ≠ "pull")
    (hcfg : configM w loc = .ok cfg) (hcl : w.cloneOk = true)
    (hmj : mergeJsonM (cloneM w cfg.source loc).1 cfg.json loc cmd
      = .ok (w2, ef2)) :
    (mainM w loc cmd).1 = .error .invalidSubCommand ∧
    Effect.gitClone cfg.source loc ∈ (mainM w loc cmd).2.2 := by
  have hres : mainM w loc cmd
      = (.error .invalidSubCommand, w2,
          (cloneM w cfg.source loc).2.1 ++ ef2) := by
    unfold mainM
    rw [hcfg]
    dsimp only
    rw [cloneM_result_ok hcl]
    dsimp only
    rw [hmj]
    dsimp only
    rw [if_neg hc1, if_neg hc2]
  rw [hres]
  exact ⟨rfl, List.mem_append_left _ (cloneM_clone_mem w cfg.source loc)⟩

/-- C8: when the loaded configuration object lacks a `source` field,
`config` fails with the `'config is missing source'` error and `main`
aborts before any filesystem mutation: the world is unchanged and the
effect trace is empty — no cache deletion, clone, merge or copy has
happened. -/
theorem config_missing_source_aborts {w : World} {loc : String}
    {fs : List (String × JVal)}
    (hcfg : readJson w (pathJoin loc "template.json") = .obj fs)
    (hsrc : lookupF fs "source" = none) :
    configM w loc = .error .configMissingSource ∧
    ∀ cmd, mainM w loc cmd = (.error .configMissingSource, w, []) := by
  have hc : configM w loc = .error .configMissingSource := by
    unfold configM
    rw [hcfg]
    have ht : truthyOpt (getJ (JVal.obj fs) "source") = false := by
      rw [getJ, hsrc]
      rfl
    dsimp only
    rw [if_pos ht]
  refine ⟨hc, fun cmd => ?_⟩
  unfold mainM
  rw [hc]

/-- C10: a command that is neither `commit` nor `pull` makes the
JSON-merge phase read-only — whenever `mergeJson` completes it leaves the
world unchanged and records no effect — so the only filesystem mutations
an invalid command performs before `main`'s `'invalid sub-command'` error
are those of the template-cache refresh (the best-effort cache removal
and the clone). -/
theorem mergeJson_invalid_no_writes {loc cmd : String}
    (hc1 : cmd ≠ "commit") (hc2 : cmd ≠ "pull") :
    (∀ (w : World) (json : Option JVal) (r : World × List Effect),
        mergeJsonM w json loc cmd = .ok r → r = (w, [])) ∧
    (∀ (w : World) (cfg : ConfigR) (w2 : World) (ef2 : List Effect),
        configM w loc = .ok cfg → w.cloneOk = true →
        mergeJsonM (cloneM w cfg.source loc).1 cfg.json loc cmd
          = .ok (w2, ef2) →
        ∀ e ∈ (mainM w loc cmd).2.2,
          e = Effect.rmdirRec (pathJoin loc ".template") ∨
            e = Effect.gitClone cfg.source loc) := by
  refine ⟨fun w json r h => mergeJsonM_invalid hc1 hc2 h, ?_⟩
  intro w cfg w2 ef2 hcfg hcl hmj e he
  have hres : mainM w loc cmd
      = (.error .invalidSubCommand, w2,
          (cloneM w cfg.source loc).2.1 ++ ef2) := by
    unfold mainM
    rw [hcfg]
    dsimp only
    rw [cloneM_result_ok hcl]
    dsimp only
    rw [hmj]
    dsimp only
    rw [if_neg hc1, if_neg hc2]
  have hef2 : (w2, ef2) = ((cloneM w cfg.source loc).1, ([] : List Effect)) :=
    mergeJsonM_invalid hc1 hc2 hmj
  rw [hres] at he
  have hef2' : ef2 = [] := congrArg Prod.snd hef2
  rw [hef2', List.append_nil] at he
  exact cloneM_effects w cfg.source loc e he


/- Concrete instantiations of the hypothesised claim theorems. -/

def c7World : World :=
  { files := [("/proj/template.json",
      .jsonData (.obj [("source", .str "repo")]))]
    dirs := []
    projectTree := []
    repo := []
    repoTree := []
    cloneOk := true }

def c8World : World :=
  { files := []
    dirs := []
    projectTree := []
    repo := []
    repoTree := []
    cloneOk := true }

theorem deepMerge_right_biased_witness :
    (∀ k v, lookupF [("b", JVal.num 2)] k = some v → isScalar v = true →
      getJ (JVal.obj [("a", JVal.num 1), ("b", JVal.num 2)]) k = some v) ∧
    (∀ k, k ∉ keysF [("b", JVal.num 2)] →
      getJ (JVal.obj [("a", JVal.num 1), ("b", JVal.num 2)]) k
        = lookupF [("a", JVal.num 1)] k) ∧
    (∀ k tnf snf, lookupF [("a", JVal.num 1)] k = some (JVal.obj tnf) →
      lookupF [("b", JVal.num 2)] k = some (JVal.obj snf) →
      ∃ rnf, getJ (JVal.obj [("a", JVal.num 1), ("b", JVal.num 2)]) k
          = some (JVal.obj rnf) ∧
        ∀ k2, k2 ∈ keysF tnf → k2 ∉ keysF snf →
          lookupF rnf k2 = lookupF tnf k2) :=
  deepMerge_right_biased (by decide) (by decide)
    (rfl : deepMerge (.obj [("a", JVal.num 1)]) (.obj [("b", JVal.num 2)])
      = .ok (.obj [("a", JVal.num 1), ("b", JVal.num 2)]))

theorem deepMerge_array_elementwise_witness :
    getJ (JVal.obj [("a", JVal.arr [JVal.num 9, JVal.num 2])]) "a"
      = some (JVal.arr
          ([JVal.num 9] ++ [JVal.num 1, JVal.num 2].drop 1)) :=
  deepMerge_array_elementwise.1
    [("a", JVal.arr [JVal.num 1, JVal.num 2])]
    [("a", JVal.arr [JVal.num 9])]
    (JVal.obj [("a", JVal.arr [JVal.num 9, JVal.num 2])])
    "a" [JVal.num 1, JVal.num 2] [JVal.num 9]
    (by decide) rfl rfl rfl (by decide) (by decide) (by decide)

theorem commit_pull_roundtrip_witness :
    ∃ t1f p1f,
      commitStep (.obj [("x", JVal.num 1)]) (.obj [("y", JVal.num 2)])
          (.arr []) = .ok (.obj t1f) ∧
      pullStep (.obj [("x", JVal.num 1)]) (.obj t1f) (.arr [])
        = .ok (.obj p1f) ∧
      (∀ k v, lookupF [("x", JVal.num 1)] k = some v →
        lookupF p1f k = some v) ∧
      (∀ kv ∈ [("y", JVal.num 2)], strIncl [] kv.1 = false →
        lookupF p1f kv.1 = some kv.2) ∧
      pullStep (.obj p1f) (.obj t1f) (.arr []) = .ok (.obj p1f) :=
  commit_pull_roundtrip (by decide) (by decide)
    (by
      intro k hk1 hk2
      simp [keysF] at hk1 hk2
      rw [hk1] at hk2
      exact absurd hk2 (by decide))
    (by decide) (by decide)

theorem template_normal_roundtrip_witness :
    templateFile ("/proj" ++ "/" ++ "pkg.json") "/proj" =
      pathJoin "/proj" ".template" ++ "/" ++ "pkg.json" ∧
    normalFile (templateFile ("/proj" ++ "/" ++ "pkg.json") "/proj")
      (pathJoin "/proj" ".template") "/proj" = "/proj" ++ "/" ++ "pkg.json" :=
  template_normal_roundtrip "/proj" "pkg.json" (by decide) (by decide)
    (by decide) (by decide)

theorem files_ignore_spec_witness :
    ∃ segs : List String, segs ≠ [] ∧
      "/p/src/a.ts" = segs.foldl pathJoin "/p" ∧
      (∀ s ∈ segs, strIncl [JVal.str ".git"] s = false) ∧
      reachesFile [FsEntry.dir "src" [FsEntry.file "a.ts"]] segs = true :=
  files_ignore_spec [FsEntry.dir "src" [FsEntry.file "a.ts"]] "/p"
    "/p/src/a.ts" (by decide)

theorem main_invalid_command_witness :
    (mainM c7World "/proj" "status").1 = .error .invalidSubCommand ∧
    Effect.gitClone (JVal.str "repo") "/proj"
      ∈ (mainM c7World "/proj" "status").2.2 :=
  main_invalid_command
    (show ("status" : String) ≠ "commit" by decide)
    (show ("status" : String) ≠ "pull" by decide)
    (rfl : configM c7World "/proj"
      = .ok ⟨JVal.str "repo", [JVal.str ".git", JVal.str ".template"], none⟩)
    rfl
    (rfl : mergeJsonM (cloneM c7World (JVal.str "repo") "/proj").1 none
        "/proj" "status"
      = .ok ((cloneM c7World (JVal.str "repo") "/proj").1, []))

theorem config_missing_source_aborts_witness :
    configM c8World "/p" = .error .configMissingSource ∧
    ∀ cmd, mainM c8World "/p" cmd = (.error .configMissingSource, c8World, []) :=
  config_missing_source_aborts
    (rfl : readJson c8World (pathJoin "/p" "template.json") = .obj [])
    rfl

theorem mergeJson_invalid_no_writes_witness :
    (∀ (w : World) (json : Option JVal) (r : World × List Effect),
        mergeJsonM w json "/p" "status" = .ok r → r = (w, [])) ∧
    (∀ (w : World) (cfg : ConfigR) (w2 : World) (ef2 : List Effect),
        configM w "/p" = .ok cfg → w.cloneOk = true →
        mergeJsonM (cloneM w cfg.source "/p").1 cfg.json "/p" "status"
          = .ok (w2, ef2) →
        ∀ e ∈ (mainM w "/p" "status").2.2,
          e = Effect.rmdirRec (pathJoin "/p" ".template") ∨
            e = Effect.gitClone cfg.source "/p") :=
  mergeJson_invalid_no_writes (by decide) (by decide)

end Template
